import Mathlib

/-!
# GOFLAP: the pushdown-automaton engine of `GOFLAP.go`

A shallow embedding of the automaton engine (`create_pda`, `find_transitions_pda`,
`step_pda`, `run_pda`, `int_in_slice`, `base_run_command`, `load_command`) and of the
library functions it calls, followed by the properties established about them.

The engine is embedded at two levels.

* On stack contents (`GoFlap.step_pda`, `GoFlap.run_pda`, ...): `PDA.Stack` is the list of
  the cells the slice shows.  This is what a run sees of its own configuration.
* On memory (`GoFlap.Mem.step_pda`, `GoFlap.Mem.run_pda`, ...): `PDA.Stack` is a slice
  header (address, length, capacity) over a heap of backing arrays, with Go's rules for
  `s[:n]` and `append`.  This is needed to follow what a run does to the machine of its
  caller, which shares the backing array with the by-value copy.

The two levels agree within one run (`mem_step_sim`, `mem_run_pda_sim`).

Conventions of the embedding.

* Go `int` values (states, indices) are `Int`/`Nat`; the engine performs no arithmetic on
  states, and counters only count steps, so no wrap-around can be observed.  `int` is taken
  to be 64 bits wide where its range matters (`Atoi`).
* Go strings held in a machine (`Delta`, `Z`, the fields of a transition, stack cells) are
  Lean `String`s, i.e. sequences of Unicode scalar values: the strings of a loaded machine
  come out of the YAML decoder and are valid UTF-8.  The input word of a run is a sequence
  of bytes (`List UInt8`), because `run_pda` indexes it byte by byte.
* The stack is a list whose LAST element is the top, as in the source
  ("the right side is pushed and popped").
* A Go runtime panic (index out of range) is the value `none` (`Outcome.panic` for a run).
* The capacity of the array that `append` allocates when a slice is full is the choice of
  the runtime; the memory-level definitions take it as a parameter `grow` and use of it only
  that the new array has room for the new element.
* The interactive read `fmt.Scanf("%d\n", &transition_index)` is a list `stdin` of the
  integers that the successive scans deliver; when the list is exhausted the scan fails and
  `transition_index` keeps its value.
* A specification document is the record of the keys it has (`Document`); reading the
  file and decoding YAML are outside the program and enter `load_command` as its result.
* Printing is not modelled; the parameter `verbose` only selects what is printed and is
  left out.  The transitions a verbose run prints are kept as the `trace` of the run.
* Loops that need not terminate take a fuel argument and report `Outcome.unfinished` when
  it runs out.
-/

namespace GoFlap

/-! ## Data model -/

/-- Transition quintuple: the struct `PDA_transition`. -/
structure PDA_transition where
  StartState : Int
  Character : String
  Pop : String
  Push : String
  FinalState : Int
deriving DecidableEq

/-- Machine description as decoded from the YAML document: the struct `PDA_settings`. -/
structure PDA_settings where
  Delta : String
  Q0 : Int
  Z : String
  F : List Int
deriving DecidableEq

/-- Machine together with its current configuration: the struct `PDA`, with the stack seen
as the list of its cells (top last). -/
structure PDA where
  Stack : List String
  State : Int
  Settings : PDA_settings
  Transitions : List PDA_transition
deriving DecidableEq

/-- The epsilon marker of the encoding. -/
def lam : String := "λ"

/-! ## Library functions used by the engine (Go standard library) -/

/-- White space in the sense of Go's `unicode.IsSpace`. -/
def isSpace (r : Char) : Bool :=
  let n := r.toNat
  n = 0x09 || n = 0x0A || n = 0x0B || n = 0x0C || n = 0x0D || n = 0x20 || n = 0x85 || n = 0xA0
    || n = 0x1680 || (0x2000 ≤ n && n ≤ 0x200A) || n = 0x2028 || n = 0x2029 || n = 0x202F
    || n = 0x205F || n = 0x3000

/-- Go's `strings.TrimSpace`: all leading and trailing white space removed. -/
def TrimSpace (s : String) : String :=
  ⟨(s.data.dropWhile isSpace).rdropWhile isSpace⟩

/-- Scan of `strings.Replace(s, old, new, -1)` for a non-empty `old`: the leftmost
occurrence is replaced, the scan resumes right after it.  `skip` counts the characters of
an occurrence still to be passed over. -/
def replaceScan (old new : List Char) : Nat → List Char → List Char
  | _, [] => []
  | skip + 1, _ :: cs => replaceScan old new skip cs
  | 0, c :: cs =>
    if old.isPrefixOf (c :: cs) then new ++ replaceScan old new (old.length - 1) cs
    else c :: replaceScan old new 0 cs

/-- Go's `strings.Replace(s, old, new, -1)` for a non-empty `old`. -/
def Replace (s old new : String) : String :=
  ⟨replaceScan old.data new.data 0 s.data⟩

/-- Go's `strings.Split(s, sep)` for a separator `sep` of one character: the pieces between
successive separators, `k + 1` pieces for `k` separators (so `Split "" sep = [""]`). -/
def Split (s : String) (sep : Char) : List String :=
  (s.data.splitOn sep).map String.mk

/-- Value of a decimal digit, if the character is one. -/
def digitVal (c : Char) : Option Nat :=
  if 48 ≤ c.toNat ∧ c.toNat ≤ 57 then some (c.toNat - 48) else none

/-- The digit loop of the fast path of `strconv.Atoi` (`ch -= '0'; if ch > 9 { return 0,
.. }; n = n*10 + int(ch)`): `none` is the error return.  The loop runs over bytes; a
character outside ASCII consists of bytes above 0x7F, none of them a digit, so that running
over characters gives the same result. -/
def parseDigits : List Char → Nat → Option Nat
  | [], n => some n
  | c :: cs, n =>
    match digitVal c with
    | none => none
    | some d => parseDigits cs (n * 10 + d)

/-- The text after the optional sign (`if s[0] == '-' || s[0] == '+' { s = s[1:] }`). -/
def strip_sign : List Char → List Char
  | '-' :: r => r
  | '+' :: r => r
  | cs => cs

/-- The largest `uint64`. -/
def maxUint64 : Nat := 2 ^ 64 - 1

/-- How the digit loop of `strconv.ParseUint` ends: with a value, with the error for
malformed text (the value returned is 0), or with the range error (the value returned is
the largest `uint64`). -/
inductive ParseResult where
  | value (n : Nat)
  | malformed
  | overflow
deriving DecidableEq

/-- The loop of `strconv.ParseUint(s, 10, 64)` over the characters of `s`, `n` being the
value read so far: a character that is not a decimal digit ends it as malformed (a letter
is a digit of a base above 10, an underscore is accepted for base 0 only); a digit that
would take the value past the largest `uint64` (`n >= cutoff`, or `n*10 + d` above
`maxVal`) ends it with the range error, and the rest of the text is not read. -/
def parseUint : List Char → Nat → ParseResult
  | [], n => ParseResult.value n
  | c :: cs, n =>
    match digitVal c with
    | none => ParseResult.malformed
    | some d =>
      if maxUint64 / 10 + 1 ≤ n then ParseResult.overflow
      else if maxUint64 < n * 10 + d then ParseResult.overflow
      else parseUint cs (n * 10 + d)

/-- The value that `strconv.ParseInt(s, 10, 0)` returns next to its error, for a 64-bit
`int`: 0 for malformed text, the bound of the `int64` range for text out of range. -/
def ParseInt (s : List Char) : Int :=
  if s = [] then 0
  else
    let neg : Bool := s.head? = some '-'
    let body : List Char := strip_sign s
    if body = [] then 0
    else
      match parseUint body 0 with
      | ParseResult.malformed => 0
      | ParseResult.overflow => if neg then -(2 : Int) ^ 63 else (2 : Int) ^ 63 - 1
      | ParseResult.value un =>
        if neg = false ∧ 2 ^ 63 ≤ un then (2 : Int) ^ 63 - 1
        else if neg = true ∧ 2 ^ 63 < un then -(2 : Int) ^ 63
        else if neg then -(un : Int) else (un : Int)

/-- Go's `strconv.Atoi` with the error dropped (`startstate, _ := strconv.Atoi(..)`), for a
64-bit `int`.  Text of 1 to 18 bytes takes the fast path (sign, then the digit loop without
range check: 18 digits cannot overflow); any other text goes through `ParseInt`. -/
def Atoi (s : String) : Int :=
  if 0 < s.utf8ByteSize ∧ s.utf8ByteSize < 19 then
    let body : List Char := strip_sign s.data
    if body = [] then 0
    else
      match parseDigits body 0 with
      | none => 0
      | some n => if s.data.head? = some '-' then -(n : Int) else (n : Int)
  else ParseInt s.data

/-- Conversion `string(b)` of a byte: the UTF-8 text of the code point `b`. -/
def string_of_byte (b : UInt8) : String :=
  String.singleton (Char.ofNat b.toNat)

/-- The bytes of a Go string constant. -/
def bytesOf (s : String) : List UInt8 :=
  s.toUTF8.data.toList

/-! ## The engine -/

/-- The loop `for i := 0; i <= len(v)-5; i += 5` of `create_pda`; `fuel` bounds the number
of iterations (`len(v)` is always enough), `acc` is `pda.Transitions`. -/
def create_pda_loop (v : List String) : Nat → Nat → List PDA_transition → List PDA_transition
  | 0, _, acc => acc
  | fuel + 1, i, acc =>
    if i + 5 ≤ v.length then
      create_pda_loop v fuel (i + 5)
        (acc ++ [{ StartState := Atoi (v.getD i ""),
                   Character := v.getD (i + 1) "",
                   Pop := v.getD (i + 2) "",
                   Push := v.getD (i + 3) "",
                   FinalState := Atoi (v.getD (i + 4) "") }])
    else acc

/-- The token list `v` of `create_pda`. -/
def delta_tokens (Delta : String) : List String :=
  let s := TrimSpace Delta
  let s := Replace s ", " " "
  let s := Replace s "," " "
  Split s ' '

/-- The function `create_pda`. -/
def create_pda (settings : PDA_settings) : PDA :=
  let v := delta_tokens settings.Delta
  { Stack := [settings.Z],
    State := settings.Q0,
    Settings := settings,
    Transitions := create_pda_loop v v.length 0 [] }

/-- One iteration of the loop of `find_transitions_pda`, for the current `state` and the
result `top` of the read `stack[len(stack)-1]` (`none` when the stack is empty: the read
panics, which is the result `none`). -/
def find_transitions_body (state : Int) (top : Option String) (character : String)
    (transitions : List PDA_transition) (transition : PDA_transition) :
    Option (List PDA_transition) :=
  if transition.StartState = state ∧
      (transition.Character = character ∨ transition.Character = lam) then
    if transition.Pop = lam then some (transitions ++ [transition])
    else
      match top with
      | none => none
      | some top =>
        if transition.Pop = top then some (transitions ++ [transition]) else some transitions
  else some transitions

/-- The function `find_transitions_pda`.  It takes `*PDA`; the machine after the call is
returned next to the result. -/
def find_transitions_pda (pda : PDA) (character : String) :
    Option (PDA × List PDA_transition) :=
  (pda.Transitions.foldlM
      (find_transitions_body pda.State pda.Stack.getLast? character) []).map
    (fun ts => (pda, ts))

/-- The read `fmt.Scanf("%d\n", &transition_index)`: the next scanned integer, or the old
value when the scan fails. -/
def Scanf (stdin : List Int) (transition_index : Int) : Int × List Int :=
  match stdin with
  | [] => (transition_index, [])
  | x :: rest => (x, rest)

/-- The push loop `for _, char := range transition.Push`. -/
def push_runes (stack : List String) (push : String) : List String :=
  push.data.foldl (fun st char => st ++ [String.singleton char]) stack

/-- What one call of `step_pda` leaves behind: the machine, the two results, the
transition applied (printed in verbose mode) and the unread part of the input stream. -/
structure StepResult where
  pda : PDA
  do_continue : Bool
  consume_input : Bool
  applied : Option PDA_transition
  stdin : List Int
deriving DecidableEq

/-- The function `step_pda`; `none` is a runtime panic. -/
def step_pda (pda : PDA) (character : String) (stdin : List Int) : Option StepResult :=
  match find_transitions_pda pda character with
  | none => none
  | some (pda, transitions) =>
    if transitions.length = 0 then
      some { pda := pda, do_continue := false, consume_input := false,
             applied := none, stdin := stdin }
    else
      let (transition_index, stdin) :=
        if transitions.length > 1 then Scanf stdin 0 else ((0 : Int), stdin)
      if transition_index < 0 ∨ (transitions.length : Int) ≤ transition_index then none
      else
        match transitions.get? transition_index.toNat with
        | none => none
        | some transition =>
          let popped : Option (List String) :=
            if transition.Pop ≠ lam then
              (if pda.Stack.length = 0 then none else some pda.Stack.dropLast)
            else some pda.Stack
          match popped with
          | none => none
          | some stack =>
            let stack := if transition.Push ≠ lam then push_runes stack transition.Push else stack
            some { pda := { pda with Stack := stack, State := transition.FinalState },
                   do_continue := true,
                   consume_input := decide (transition.Character ≠ lam),
                   applied := some transition,
                   stdin := stdin }

/-- Result of a computation that may panic or may still be running when the fuel is spent. -/
inductive Outcome (α : Type) where
  | ok (a : α)
  | panic
  | unfinished
deriving DecidableEq

/-- The variables of the loop of `run_pda`, with the list of the transitions applied so
far (what a verbose run prints). -/
structure RunState where
  pda : PDA
  input_index : Nat
  stdin : List Int
  trace : List PDA_transition
deriving DecidableEq

/-- The symbol handed to `step_pda`: `string(input[input_index])`, or `""` past the end. -/
def next_char (input : List UInt8) (input_index : Nat) : String :=
  match input.get? input_index with
  | some b => string_of_byte b
  | none => ""

/-- One iteration of the loop `for do_continue { ... }` of `run_pda`: the new value of
`do_continue` and the variables after the iteration; `none` is a runtime panic. -/
def loop_body (input : List UInt8) (st : RunState) : Option (Bool × RunState) :=
  match step_pda st.pda (next_char input st.input_index) st.stdin with
  | none => none
  | some r =>
    some (r.do_continue,
      { pda := r.pda,
        input_index := if r.consume_input then st.input_index + 1 else st.input_index,
        stdin := r.stdin,
        trace := match r.applied with
          | some t => st.trace ++ [t]
          | none => st.trace })

/-- The loop `for do_continue { ... }` of `run_pda`, returning the variables at exit. -/
def run_loop (input : List UInt8) : Nat → RunState → Outcome RunState
  | 0, _ => Outcome.unfinished
  | fuel + 1, st =>
    match loop_body input st with
    | none => Outcome.panic
    | some (true, st1) => run_loop input fuel st1
    | some (false, st1) => Outcome.ok st1

/-- The variables of the loop after `n` iterations that all continued (`n` successful
steps); `none` when the loop has exited or panicked before. -/
def run_iter (input : List UInt8) : Nat → RunState → Option RunState
  | 0, st => some st
  | n + 1, st =>
    match loop_body input st with
    | some (true, st1) => run_iter input n st1
    | _ => none

/-- The function `int_in_slice`. -/
def int_in_slice (n : Int) : List Int → Bool
  | [] => false
  | num :: arr => if num = n then true else int_in_slice n arr

/-- The final test of `run_pda` on the variables at loop exit. -/
def run_verdict (input : List UInt8) (st : RunState) : Bool :=
  if int_in_slice st.pda.State st.pda.Settings.F ∧ st.input_index = input.length then true
  else false

/-- The variables of `run_pda` on entry. -/
def run_init (pda : PDA) (stdin : List Int) : RunState :=
  { pda := pda, input_index := 0, stdin := stdin, trace := [] }

/-- The function `run_pda`. -/
def run_pda (pda : PDA) (input : List UInt8) (stdin : List Int) (fuel : Nat) : Outcome Bool :=
  match run_loop input fuel (run_init pda stdin) with
  | Outcome.ok st => Outcome.ok (run_verdict input st)
  | Outcome.panic => Outcome.panic
  | Outcome.unfinished => Outcome.unfinished

/-! ## Memory-level model

`PDA.Stack` is a Go slice: a window on a backing array that a by-value copy of the struct
shares with the original.  The definitions below repeat the engine over an explicit heap
of backing arrays, to follow what a run does to the machine of its caller. -/

/-- A Go slice of strings: address of its backing array, length and capacity. -/
structure GoSlice where
  ptr : Nat
  len : Nat
  cap : Nat
deriving DecidableEq

/-- The backing arrays allocated so far, by address. -/
abbrev Heap := List (List String)

/-- The nil slice (no backing array: capacity 0). -/
def nil_slice : GoSlice := { ptr := 0, len := 0, cap := 0 }

/-- The cells a slice shows: the first `len` cells of its backing array. -/
def slice_view (h : Heap) (s : GoSlice) : List String :=
  (h.getD s.ptr []).take s.len

/-- The read `s[i]`; `none` is the index-out-of-range panic. -/
def slice_get (h : Heap) (s : GoSlice) (i : Int) : Option String :=
  if 0 ≤ i ∧ i < (s.len : Int) then (h.getD s.ptr []).get? i.toNat else none

/-- The slice expression `s[:n]`; `none` is the bounds panic (`n` outside `0..cap(s)`). -/
def slice_to (s : GoSlice) (n : Int) : Option GoSlice :=
  if 0 ≤ n ∧ n ≤ (s.cap : Int) then some { s with len := n.toNat } else none

/-- Capacity of the array that `append` allocates for one more element when the old one,
of capacity `cap`, is full.  The language leaves it to the runtime, requiring only room for
the new element: `grow` stands for the runtime's choice (about twice the old capacity,
rounded up to an allocation size class that depends on the version of the runtime), and the
result is at least `cap + 1`.  The first cell appended to the nil slice of strings gets an
array of capacity 1. -/
def grow_cap (grow : Nat → Nat) (cap : Nat) : Nat :=
  if cap = 0 then 1 else max (grow cap) (cap + 1)

/-- The call `append(s, x)`: written in place when the capacity allows, otherwise into a
fresh array that receives a copy of the cells of `s`. -/
def go_append (grow : Nat → Nat) (h : Heap) (s : GoSlice) (x : String) : Heap × GoSlice :=
  if s.len < s.cap then
    (h.set s.ptr ((h.getD s.ptr []).set s.len x), { s with len := s.len + 1 })
  else
    (h ++ [slice_view h s ++ [x] ++ List.replicate (grow_cap grow s.cap - (s.len + 1)) ""],
      { ptr := h.length, len := s.len + 1, cap := grow_cap grow s.cap })

namespace Mem

/-- The struct `PDA` with its stack as a slice. -/
structure PDA where
  Stack : GoSlice
  State : Int
  Settings : PDA_settings
  Transitions : List PDA_transition
deriving DecidableEq

/-- The machine as its holder sees it: the slice replaced by the cells it shows. -/
def view (h : Heap) (pda : Mem.PDA) : GoFlap.PDA :=
  { Stack := slice_view h pda.Stack,
    State := pda.State,
    Settings := pda.Settings,
    Transitions := pda.Transitions }

/-- The function `create_pda`: `pda.Stack = append(pda.Stack, settings.Z)` starts from the
nil slice; the transition table is built as in `GoFlap.create_pda`. -/
def create_pda (grow : Nat → Nat) (h : Heap) (settings : PDA_settings) : Heap × Mem.PDA :=
  let (h1, stack) := go_append grow h nil_slice settings.Z
  (h1, { Stack := stack,
         State := settings.Q0,
         Settings := settings,
         Transitions := (GoFlap.create_pda settings).Transitions })

/-- The function `find_transitions_pda`, reading the top of the stack through the heap. -/
def find_transitions_pda (h : Heap) (pda : Mem.PDA) (character : String) :
    Option (List PDA_transition) :=
  pda.Transitions.foldlM
    (find_transitions_body pda.State (slice_get h pda.Stack ((pda.Stack.len : Int) - 1))
      character) []

/-- The push loop `for _, char := range transition.Push` with `append` on the heap. -/
def push_runes (grow : Nat → Nat) (h : Heap) (stack : GoSlice) (push : String) :
    Heap × GoSlice :=
  push.data.foldl (fun hs char => go_append grow hs.1 hs.2 (String.singleton char)) (h, stack)

/-- What one call of `step_pda` leaves behind, heap included. -/
structure StepResult where
  heap : Heap
  pda : Mem.PDA
  do_continue : Bool
  consume_input : Bool
  applied : Option PDA_transition
  stdin : List Int
deriving DecidableEq

/-- The function `step_pda` over the heap; `none` is a runtime panic. -/
def step_pda (grow : Nat → Nat) (h : Heap) (pda : Mem.PDA) (character : String)
    (stdin : List Int) : Option Mem.StepResult :=
  match Mem.find_transitions_pda h pda character with
  | none => none
  | some transitions =>
    if transitions.length = 0 then
      some { heap := h, pda := pda, do_continue := false, consume_input := false,
             applied := none, stdin := stdin }
    else
      let (transition_index, stdin) :=
        if transitions.length > 1 then Scanf stdin 0 else ((0 : Int), stdin)
      if transition_index < 0 ∨ (transitions.length : Int) ≤ transition_index then none
      else
        match transitions.get? transition_index.toNat with
        | none => none
        | some transition =>
          let popped : Option GoSlice :=
            if transition.Pop ≠ lam then slice_to pda.Stack ((pda.Stack.len : Int) - 1)
            else some pda.Stack
          match popped with
          | none => none
          | some stack =>
            let (h1, stack) :=
              if transition.Push ≠ lam then Mem.push_runes grow h stack transition.Push
              else (h, stack)
            some { heap := h1,
                   pda := { pda with Stack := stack, State := transition.FinalState },
                   do_continue := true,
                   consume_input := decide (transition.Character ≠ lam),
                   applied := some transition,
                   stdin := stdin }

/-- The variables of the loop of `run_pda`, with the heap and the transitions applied. -/
structure RunState where
  heap : Heap
  pda : Mem.PDA
  input_index : Nat
  stdin : List Int
  trace : List PDA_transition
deriving DecidableEq

/-- The loop `for do_continue { ... }` of `run_pda` over the heap. -/
def run_loop (grow : Nat → Nat) (input : List UInt8) :
    Nat → Mem.RunState → Outcome Mem.RunState
  | 0, _ => Outcome.unfinished
  | fuel + 1, st =>
    match Mem.step_pda grow st.heap st.pda (next_char input st.input_index) st.stdin with
    | none => Outcome.panic
    | some r =>
      let st1 : Mem.RunState :=
        { heap := r.heap,
          pda := r.pda,
          input_index := if r.consume_input then st.input_index + 1 else st.input_index,
          stdin := r.stdin,
          trace := match r.applied with
            | some t => st.trace ++ [t]
            | none => st.trace }
      if r.do_continue then Mem.run_loop grow input fuel st1 else Outcome.ok st1

/-- What a call of `run_pda` delivers: the heap it leaves, its result, the transitions it
applied and the unread part of the input stream. -/
structure RunResult where
  heap : Heap
  accepted : Bool
  trace : List PDA_transition
  stdin : List Int
deriving DecidableEq

/-- The function `run_pda`: `pda` is the callee's copy of the struct, the heap is shared
with the caller. -/
def run_pda (grow : Nat → Nat) (h : Heap) (pda : Mem.PDA) (input : List UInt8)
    (stdin : List Int) (fuel : Nat) : Outcome Mem.RunResult :=
  match Mem.run_loop grow input fuel
      { heap := h, pda := pda, input_index := 0, stdin := stdin, trace := [] } with
  | Outcome.ok st =>
    Outcome.ok
      { heap := st.heap,
        accepted :=
          if int_in_slice st.pda.State st.pda.Settings.F ∧ st.input_index = input.length
          then true else false,
        trace := st.trace,
        stdin := st.stdin }
  | Outcome.panic => Outcome.panic
  | Outcome.unfinished => Outcome.unfinished

/-- The struct `GOFLAP_State`. -/
structure GOFLAP_State where
  PushDownAutomata : Mem.PDA
  Loaded : Bool
deriving DecidableEq

/-- The function `base_run_command`: nothing is run (result `none`) before a machine is
loaded; otherwise `run_pda` receives a copy of `state.PushDownAutomata`.  The session
state itself is not assigned to. -/
def base_run_command (grow : Nat → Nat) (h : Heap) (arg : List UInt8) (state : GOFLAP_State)
    (stdin : List Int) (fuel : Nat) : Outcome (Option Mem.RunResult) :=
  if state.Loaded = false then Outcome.ok none
  else
    match Mem.run_pda grow h state.PushDownAutomata arg stdin fuel with
    | Outcome.ok r => Outcome.ok (some r)
    | Outcome.panic => Outcome.panic
    | Outcome.unfinished => Outcome.unfinished

/-- The session state that `load_command` stores for the settings it decoded:
`state.PushDownAutomata = create_pda(pda_settings)`, `state.Loaded = true`. -/
def loaded_state (grow : Nat → Nat) (h : Heap) (settings : PDA_settings) : Heap × GOFLAP_State :=
  let (h1, pda) := Mem.create_pda grow h settings
  (h1, { PushDownAutomata := pda, Loaded := true })

end Mem

/-! ## Loading a machine (`load_command`) -/

/-- What `yaml.Unmarshal` reads from a well-formed specification document: for each key of
`PDA_settings` (`Delta`, `q0`, `Z`, `F`), its value when the document has the key. -/
structure Document where
  Delta : Option String
  q0 : Option Int
  Z : Option String
  F : Option (List Int)
deriving DecidableEq

/-- The call `yaml.Unmarshal(yfile, &pda_settings)` on a well-formed document: the fields
whose keys are present are assigned, the others keep the value they had. -/
def Unmarshal (doc : Document) (out : PDA_settings) : PDA_settings :=
  { Delta := doc.Delta.getD out.Delta,
    Q0 := doc.q0.getD out.Q0,
    Z := doc.Z.getD out.Z,
    F := doc.F.getD out.F }

/-- The session state at start-up, `GOFLAP_State{}`. -/
def Mem.init_state : Mem.GOFLAP_State :=
  { PushDownAutomata := { Stack := nil_slice, State := 0,
                          Settings := { Delta := "", Q0 := 0, Z := "", F := [] },
                          Transitions := [] },
    Loaded := false }

/-- The lines `if pda_settings.Z == "" { pda_settings.Z = "Z" }` of `load_command`. -/
def default_Z (s : PDA_settings) : PDA_settings :=
  if s.Z = "" then { s with Z := "Z" } else s

/-- The lines `if pda_settings.Q0 == -1234 { pda_settings.Q0 = 0 }` of `load_command`. -/
def default_Q0 (s : PDA_settings) : PDA_settings :=
  if s.Q0 = -1234 then { s with Q0 := 0 } else s

/-- The function `load_command`.  `yfile` is `none` when the file cannot be read,
`some none` when `yaml.Unmarshal` fails, `some (some doc)` when the document is decoded;
in the first two cases the function returns without touching the session state. -/
def Mem.load_command (grow : Nat → Nat) (h : Heap) (yfile : Option (Option Document))
    (state : Mem.GOFLAP_State) : Heap × Mem.GOFLAP_State :=
  match yfile with
  | none => (h, state)
  | some none => (h, state)
  | some (some doc) =>
    let pda_settings : PDA_settings := { Delta := "", Q0 := 0, Z := "", F := [] }
    let pda_settings : PDA_settings := { pda_settings with Q0 := -1234 }
    let pda_settings : PDA_settings := Unmarshal doc pda_settings
    let pda_settings : PDA_settings := default_Z pda_settings
    let pda_settings : PDA_settings := default_Q0 pda_settings
    let (h1, pda) := Mem.create_pda grow h pda_settings
    (h1, { PushDownAutomata := pda, Loaded := true })

/-! ## Specification-side definitions -/

/-- The matching condition of the specification: start state equal to the current state,
input symbol equal to the next symbol or epsilon, pop symbol epsilon or equal to the top of
the stack. -/
def applies (pda : PDA) (character : String) (t : PDA_transition) : Bool :=
  decide (t.StartState = pda.State ∧ (t.Character = character ∨ t.Character = "λ") ∧
    (t.Pop = "λ" ∨ pda.Stack.getLast? = some t.Pop))

/-- The stack prescribed by steps 3 and 4 of the step algorithm of the specification: one
cell removed from the top when the pop symbol is not epsilon, then the characters of the
push token appended from left to right when the token is not epsilon. -/
def stack_after (stack : List String) (t : PDA_transition) : List String :=
  (if t.Pop = "λ" then stack else stack.dropLast) ++
    (if t.Push = "λ" then [] else t.Push.data.map String.singleton)

/-- The transition that the specification builds from the five tokens starting at index
`i` of the token list: start state, input symbol, pop, push, end state. -/
def quintuple (v : List String) (i : Nat) : PDA_transition :=
  { StartState := Atoi (v.getD i ""),
    Character := v.getD (i + 1) "",
    Pop := v.getD (i + 2) "",
    Push := v.getD (i + 3) "",
    FinalState := Atoi (v.getD (i + 4) "") }

/-- Decimal digit, as a property of a character. -/
def is_digit (c : Char) : Bool := decide (48 ≤ c.toNat ∧ c.toNat ≤ 57)

/-- The integer that a token denotes when it is an optionally signed decimal integer: an
optional `+` or `-` followed by at least one decimal digit; `none` for any other token. -/
def numeral_value (s : String) : Option Int :=
  let body := strip_sign s.data
  if body ≠ [] ∧ body.all is_digit = true then
    let n : Nat := Nat.ofDigits 10 (body.reverse.map (fun c => c.toNat - 48))
    some (if s.data.head? = some '-' then -(n : Int) else (n : Int))
  else none

/-- The number written by the decimal digits that follow the optional sign of a token, up
to the first character that is not a digit (0 when there is none). -/
def leading_digits_value (s : String) : Nat :=
  Nat.ofDigits 10 (((strip_sign s.data).takeWhile is_digit).reverse.map (fun c => c.toNat - 48))

/-- The bound of the range of `int` on the side of the sign of a token: the least `int`
for a token that begins with `-`, the greatest one otherwise. -/
def int_bound (s : String) : Int :=
  if s.data.head? = some '-' then -(2 : Int) ^ 63 else (2 : Int) ^ 63 - 1

/-- Decimal text of an integer, as `strconv.Itoa` writes it. -/
def Itoa (n : Int) : String := toString n

/-- The range of a 64-bit Go `int`. -/
abbrev in_int_range (n : Int) : Prop := -(2 : Int) ^ 63 ≤ n ∧ n ≤ (2 : Int) ^ 63 - 1

/-- A non-empty string with no space and no comma. -/
abbrev clean (s : String) : Prop := s.data ≠ [] ∧ ' ' ∉ s.data ∧ ',' ∉ s.data

/-- Tokens joined by a separator: `a sep b sep c`. -/
def joinWith (sep : List Char) : List (List Char) → List Char
  | [] => []
  | [a] => a
  | a :: b :: l => a ++ sep ++ joinWith sep (b :: l)

/-- The five tokens that write a transition: its fields in order, states in decimal. -/
def fields (t : PDA_transition) : List String :=
  [Itoa t.StartState, t.Character, t.Pop, t.Push, Itoa t.FinalState]

/-- The compact quintuple string of a transition list: all fields, joined by `sep`. -/
def encode (sep : String) (ts : List PDA_transition) : String :=
  ⟨sep.data.intercalate ((ts.flatMap fields).map String.data)⟩

/-- Number of pops among applied transitions: those whose pop symbol is not epsilon. -/
def pops (trace : List PDA_transition) : Nat :=
  (trace.filter (fun t => decide (t.Pop ≠ "λ"))).length

/-- Number of cells pushed by applied transitions: for each one whose push token is not
epsilon, the number of characters of the token. -/
def pushed (trace : List PDA_transition) : Nat :=
  (trace.map (fun t => if t.Push = "λ" then 0 else t.Push.data.length)).sum

/-- The text of a token list in which every token after the first is preceded by a
separator of its own: `first sep₁ tok₁ sep₂ tok₂ ..` for `rest = [(sep₁, tok₁), ..]`. -/
def separated (first : String) (rest : List (String × String)) : String :=
  ⟨first.data ++ rest.flatMap (fun p => p.1.data ++ p.2.data)⟩

/-! ## The memory-level model seen from the engine on stack contents -/

/-- A slice is well formed on a heap: its length is within its capacity, and its capacity
within its backing array. -/
def slice_ok (h : Heap) (s : GoSlice) : Prop :=
  s.len ≤ s.cap ∧ s.cap ≤ (h.getD s.ptr []).length

/-- Image of an outcome under a function. -/
def Outcome.map {α β : Type} (f : α → β) : Outcome α → Outcome β
  | Outcome.ok a => Outcome.ok (f a)
  | Outcome.panic => Outcome.panic
  | Outcome.unfinished => Outcome.unfinished

/-- The result of a step as its caller sees it. -/
def Mem.StepResult.abs (r : Mem.StepResult) : GoFlap.StepResult :=
  { pda := Mem.view r.heap r.pda, do_continue := r.do_continue,
    consume_input := r.consume_input, applied := r.applied, stdin := r.stdin }

/-- The loop variables as their holder sees them. -/
def Mem.RunState.abs (st : Mem.RunState) : GoFlap.RunState :=
  { pda := Mem.view st.heap st.pda, input_index := st.input_index, stdin := st.stdin,
    trace := st.trace }

/-! ## Machines and documents used as concrete inputs -/

/-- The balanced-parentheses machine of the specification. -/
def parens_settings : PDA_settings :=
  { Delta := "0 ( λ ( 0 0 ) ( λ 0", Q0 := 0, Z := "Z", F := [0] }

/-- A machine with two transitions applicable to the same configuration. -/
def fork_settings : PDA_settings :=
  { Delta := "0 a λ λ 1 0 a λ λ 2", Q0 := 0, Z := "Z", F := [2] }

/-- A machine that replaces the bottom marker of the stack by another symbol. -/
def swap_settings : PDA_settings :=
  { Delta := "0 a Z A 1", Q0 := 0, Z := "Z", F := [1] }

/-- A machine whose only transition pops the bottom marker and pushes nothing. -/
def drain_settings : PDA_settings :=
  { Delta := "0 a Z λ 0", Q0 := 0, Z := "Z", F := [0] }

/-- The balanced-parentheses transitions with an empty set of final states. -/
def nofinal_settings : PDA_settings :=
  { Delta := "0 ( λ ( 0 0 ) ( λ 0", Q0 := 0, Z := "Z", F := [] }

/-- A machine whose first token is twenty nines followed by a letter. -/
def overflow_settings : PDA_settings :=
  { Delta := "99999999999999999999x a Z A 0", Q0 := 0, Z := "Z", F := [0] }

/-- A document that gives the start state -1234. -/
def doc_q0_sentinel : Document :=
  { Delta := some "0 a Z A 1", q0 := some (-1234), Z := some "Z", F := some [1] }

/-- A document that gives the empty string as start symbol of the stack. -/
def doc_Z_empty : Document :=
  { Delta := some "0 a Z A 1", q0 := some 5, Z := some "", F := some [1] }

/-- A document with the key `Delta` only. -/
def doc_bare : Document :=
  { Delta := some "0 a Z A 1", q0 := none, Z := none, F := none }

/-! ## Properties -/

theorem foldlM_find_some (state : Int) (top character : String) (l : List PDA_transition) :
    ∀ acc : List PDA_transition,
      l.foldlM (find_transitions_body state (some top) character) acc =
        some (acc ++ l.filter (fun t => decide (t.StartState = state ∧
          (t.Character = character ∨ t.Character = "λ") ∧ (t.Pop = "λ" ∨ some top = some t.Pop)))) := by
  induction l with
  | nil => intro acc; simp
  | cons t l ih =>
    intro acc
    rw [List.foldlM_cons]
    by_cases h1 : t.StartState = state ∧ (t.Character = character ∨ t.Character = "λ")
    · by_cases h2 : t.Pop = "λ"
      · simp [find_transitions_body, lam, h1, h2, ih]
      · by_cases h3 : t.Pop = top
        · simp [find_transitions_body, lam, h1, h2, h3, ih]
        · have h3b : ¬ top = t.Pop := fun e => h3 e.symm
          simp [find_transitions_body, lam, h1, h2, h3, h3b, ih]
    · have h1b : ¬ (t.StartState = state ∧ (t.Character = character ∨ t.Character = "λ") ∧
          (t.Pop = "λ" ∨ some top = some t.Pop)) := fun h => h1 ⟨h.1, h.2.1⟩
      rw [List.filter_cons_of_neg (by simpa using h1b)]
      simp only [find_transitions_body, lam, h1, if_false]
      exact ih acc

theorem find_transitions_pda_eq (pda : PDA) (character : String) (h : pda.Stack ≠ []) :
    find_transitions_pda pda character =
      some (pda, pda.Transitions.filter (applies pda character)) := by
  obtain ⟨top, htop⟩ : ∃ top, pda.Stack.getLast? = some top := by
    cases hs : pda.Stack.getLast? with
    | none => exact absurd (List.getLast?_eq_none_iff.mp hs) h
    | some top => exact ⟨top, rfl⟩
  unfold find_transitions_pda
  rw [htop, foldlM_find_some]
  have hfun : (fun t : PDA_transition => decide (t.StartState = pda.State ∧
      (t.Character = character ∨ t.Character = "λ") ∧ (t.Pop = "λ" ∨ some top = some t.Pop)))
      = applies pda character := by
    funext t
    simp [applies, htop]
  rw [hfun]
  rfl

theorem push_runes_eq (push : String) : ∀ stack : List String,
    push_runes stack push = stack ++ push.data.map String.singleton := by
  unfold push_runes
  induction push.data with
  | nil => intro stack; simp
  | cons c cs ih => intro stack; simp [ih]

theorem foldlM_find_of_some (state : Int) (top : Option String) (character : String)
    (l : List PDA_transition) :
    ∀ acc res : List PDA_transition,
      l.foldlM (find_transitions_body state top character) acc = some res →
        res = acc ++ l.filter (fun t => decide (t.StartState = state ∧
          (t.Character = character ∨ t.Character = "λ") ∧ (t.Pop = "λ" ∨ top = some t.Pop))) := by
  induction l with
  | nil => intro acc res h; simpa using h.symm
  | cons t l ih =>
    intro acc res h
    rw [List.foldlM_cons] at h
    cases hb : find_transitions_body state top character acc t with
    | none => rw [hb] at h; simp at h
    | some acc1 =>
      rw [hb] at h
      have h1 := ih acc1 res h
      rw [h1]
      unfold find_transitions_body at hb
      by_cases c1 : t.StartState = state ∧ (t.Character = character ∨ t.Character = "λ")
      · by_cases c2 : t.Pop = "λ"
        · simp [lam, c1, c2] at hb
          simp [c1, c2, ← hb]
        · cases top with
          | none => simp [lam, c1, c2] at hb
          | some x =>
            by_cases c3 : t.Pop = x
            · simp [lam, c1, c2, c3] at hb
              simp [c1, c3, ← hb]
            · have c3b : ¬ x = t.Pop := fun e => c3 e.symm
              simp [lam, c1, c2, c3] at hb
              simp [c1, c2, c3b, ← hb]
      · simp only [lam, c1, if_false] at hb
        have c1b : ¬ (t.StartState = state ∧ (t.Character = character ∨ t.Character = "λ") ∧
          (t.Pop = "λ" ∨ top = some t.Pop)) := fun h => c1 ⟨h.1, h.2.1⟩
        rw [List.filter_cons_of_neg (by simpa using c1b)]
        simp at hb
        rw [hb]

theorem find_transitions_pda_of_some (pda p : PDA) (character : String)
    (ts : List PDA_transition) (h : find_transitions_pda pda character = some (p, ts)) :
    p = pda ∧ ts = pda.Transitions.filter (applies pda character) := by
  unfold find_transitions_pda at h
  cases hf : pda.Transitions.foldlM
      (find_transitions_body pda.State pda.Stack.getLast? character) [] with
  | none => rw [hf] at h; simp at h
  | some res =>
    rw [hf] at h
    simp only [Option.map_some', Option.some.injEq, Prod.mk.injEq] at h
    have h2 := foldlM_find_of_some _ _ _ _ _ _ hf
    refine ⟨h.1.symm, ?_⟩
    rw [← h.2, h2]
    rfl

theorem step_pda_cases (pda : PDA) (character : String) (stdin : List Int) (r : StepResult)
    (h : step_pda pda character stdin = some r) :
    (r.pda = pda ∧ r.do_continue = false ∧ r.consume_input = false ∧ r.applied = none ∧
        r.stdin = stdin) ∨
    (∃ t, t ∈ pda.Transitions ∧ applies pda character t = true ∧ r.applied = some t ∧
        r.do_continue = true ∧ r.consume_input = decide (t.Character ≠ "λ") ∧
        r.pda = { pda with Stack := stack_after pda.Stack t, State := t.FinalState }) := by
  unfold step_pda at h
  cases hf : find_transitions_pda pda character with
  | none => rw [hf] at h; simp at h
  | some pts =>
    obtain ⟨p, ts⟩ := pts
    obtain ⟨hp, hts⟩ := find_transitions_pda_of_some _ _ _ _ hf
    rw [hf] at h
    subst hp
    simp only [] at h
    by_cases hlen0 : ts.length = 0
    · left
      simp only [hlen0, if_true, Option.some.injEq] at h
      subst h
      simp
    · right
      simp only [hlen0, if_false] at h
      generalize (if ts.length > 1 then Scanf stdin 0 else ((0 : Int), stdin)) = choice at h
      obtain ⟨idx, rest⟩ := choice
      simp only [] at h
      by_cases hidx : idx < 0 ∨ (ts.length : Int) ≤ idx
      · simp [hidx] at h
      · simp only [hidx, if_false] at h
        cases hget : ts.get? idx.toNat with
        | none => rw [hget] at h; simp at h
        | some t =>
          rw [hget] at h
          have hmem : t ∈ ts := List.get?_mem hget
          rw [hts] at hmem
          obtain ⟨hm1, hm2⟩ := List.mem_filter.mp hmem
          refine ⟨t, hm1, hm2, ?_⟩
          have hap := hm2
          simp only [applies, decide_eq_true_eq] at hap
          by_cases hpop : t.Pop = "λ"
          · by_cases hpush : t.Push = "λ" <;>
              simp [lam, hpop, hpush, stack_after, push_runes_eq] at h ⊢ <;>
              subst h <;> simp
          · have hlast : p.Stack.getLast? = some t.Pop := by
              rcases hap.2.2 with h1 | h1
              · exact absurd h1 hpop
              · exact h1
            have hl : p.Stack.length ≠ 0 := by
              intro h0
              have : p.Stack = [] := List.length_eq_zero.mp h0
              rw [this] at hlast
              simp at hlast
            by_cases hpush : t.Push = "λ" <;>
              simp [lam, hpop, hpush, hl, stack_after, push_runes_eq] at h ⊢ <;>
              subst h <;> simp

theorem step_pda_eq (pda : PDA) (character : String) (stdin : List Int) (h : pda.Stack ≠ []) :
    step_pda pda character stdin =
      if (pda.Transitions.filter (applies pda character)).length = 0 then
        some { pda := pda, do_continue := false, consume_input := false,
               applied := none, stdin := stdin }
      else
        let choice : Int × List Int :=
          if (pda.Transitions.filter (applies pda character)).length > 1 then Scanf stdin 0
          else ((0 : Int), stdin)
        if choice.1 < 0 ∨ ((pda.Transitions.filter (applies pda character)).length : Int) ≤ choice.1
        then none
        else
          match (pda.Transitions.filter (applies pda character)).get? choice.1.toNat with
          | none => none
          | some t =>
            some { pda := { pda with Stack := stack_after pda.Stack t, State := t.FinalState },
                   do_continue := true,
                   consume_input := decide (t.Character ≠ "λ"),
                   applied := some t,
                   stdin := choice.2 } := by
  have hl : pda.Stack.length ≠ 0 := by simpa using h
  unfold step_pda
  rw [find_transitions_pda_eq pda character h]
  simp only []
  by_cases hlen0 : (pda.Transitions.filter (applies pda character)).length = 0
  · simp only [hlen0, if_true]
  · simp only [hlen0, if_false]
    generalize (if (pda.Transitions.filter (applies pda character)).length > 1 then Scanf stdin 0
          else ((0 : Int), stdin)) = choice
    obtain ⟨idx, rest⟩ := choice
    simp only []
    by_cases hidx : idx < 0 ∨ ((pda.Transitions.filter (applies pda character)).length : Int) ≤ idx
    · simp only [hidx, if_true]
    · simp only [hidx, if_false]
      cases hget : (pda.Transitions.filter (applies pda character)).get? idx.toNat with
      | none => rfl
      | some t =>
        by_cases hpop : t.Pop = "λ" <;> by_cases hpush : t.Push = "λ" <;>
          simp [lam, hpop, hpush, hl, stack_after, push_runes_eq]

theorem int_in_slice_iff (n : Int) (arr : List Int) : int_in_slice n arr = true ↔ n ∈ arr := by
  induction arr with
  | nil => simp [int_in_slice]
  | cons a arr ih =>
    by_cases h : a = n
    · simp [int_in_slice, h]
    · have h2 : ¬ n = a := fun e => h e.symm
      simp [int_in_slice, h, h2, ih]

theorem step_pda_frame (pda : PDA) (character : String) (stdin : List Int) (r : StepResult)
    (h : step_pda pda character stdin = some r) :
    r.pda.Settings = pda.Settings ∧ r.pda.Transitions = pda.Transitions := by
  rcases step_pda_cases pda character stdin r h with h1 | ⟨t, _, _, _, _, _, h1⟩
  · rw [h1.1]; exact ⟨rfl, rfl⟩
  · rw [h1]; exact ⟨rfl, rfl⟩

theorem loop_body_frame (input : List UInt8) (st st1 : RunState) (b : Bool)
    (h : loop_body input st = some (b, st1)) :
    st1.pda.Settings = st.pda.Settings ∧ st1.pda.Transitions = st.pda.Transitions := by
  unfold loop_body at h
  cases hs : step_pda st.pda (next_char input st.input_index) st.stdin with
  | none => rw [hs] at h; simp at h
  | some r =>
    rw [hs] at h
    simp only [Option.some.injEq, Prod.mk.injEq] at h
    rw [← h.2]
    exact step_pda_frame _ _ _ _ hs

theorem run_loop_frame (input : List UInt8) : ∀ (fuel : Nat) (st st1 : RunState),
    run_loop input fuel st = Outcome.ok st1 →
      st1.pda.Settings = st.pda.Settings ∧ st1.pda.Transitions = st.pda.Transitions := by
  intro fuel
  induction fuel with
  | zero => intro st st1 h; simp [run_loop] at h
  | succ fuel ih =>
    intro st st1 h
    unfold run_loop at h
    cases hb : loop_body input st with
    | none => rw [hb] at h; simp at h
    | some bs =>
      obtain ⟨b, s1⟩ := bs
      rw [hb] at h
      obtain ⟨f1, f2⟩ := loop_body_frame _ _ _ _ hb
      cases b with
      | true =>
        obtain ⟨g1, g2⟩ := ih _ _ h
        exact ⟨g1.trans f1, g2.trans f2⟩
      | false =>
        simp only [Outcome.ok.injEq] at h
        subst h
        exact ⟨f1, f2⟩

theorem run_loop_mono (input : List UInt8) : ∀ (fuel : Nat) (st st1 : RunState),
    run_loop input fuel st = Outcome.ok st1 →
      ∀ k, run_loop input (fuel + k) st = Outcome.ok st1 := by
  intro fuel
  induction fuel with
  | zero => intro st st1 h; simp [run_loop] at h
  | succ fuel ih =>
    intro st st1 h k
    rw [Nat.add_right_comm]
    unfold run_loop at h ⊢
    cases hb : loop_body input st with
    | none => rw [hb] at h; simp at h
    | some bs =>
      obtain ⟨b, s1⟩ := bs
      rw [hb] at h
      cases b with
      | true => exact ih _ _ h k
      | false => exact h

theorem loop_body_continue (input : List UInt8) (st st1 : RunState)
    (h : loop_body input st = some (true, st1)) :
    ∃ t, t ∈ st.pda.Transitions ∧ applies st.pda (next_char input st.input_index) t = true ∧
      st1.pda = { st.pda with Stack := stack_after st.pda.Stack t, State := t.FinalState } ∧
      st1.trace = st.trace ++ [t] ∧
      st1.input_index = (if t.Character = "λ" then st.input_index else st.input_index + 1) := by
  unfold loop_body at h
  cases hs : step_pda st.pda (next_char input st.input_index) st.stdin with
  | none => rw [hs] at h; simp at h
  | some r =>
    rw [hs] at h
    simp only [Option.some.injEq, Prod.mk.injEq] at h
    obtain ⟨hc, hst⟩ := h
    rcases step_pda_cases _ _ _ _ hs with h1 | ⟨t, m1, m2, m3, m4, m5, m6⟩
    · rw [h1.2.1] at hc; simp at hc
    · refine ⟨t, m1, m2, ?_, ?_, ?_⟩
      · rw [← hst]; exact m6
      · rw [← hst]; simp [m3]
      · rw [← hst]
        by_cases hch : t.Character = "λ" <;> simp [m5, hch]

theorem loop_body_stop (input : List UInt8) (st st1 : RunState)
    (h : loop_body input st = some (false, st1)) : st1 = st := by
  unfold loop_body at h
  cases hs : step_pda st.pda (next_char input st.input_index) st.stdin with
  | none => rw [hs] at h; simp at h
  | some r =>
    rw [hs] at h
    simp only [Option.some.injEq, Prod.mk.injEq] at h
    obtain ⟨hc, hst⟩ := h
    rcases step_pda_cases _ _ _ _ hs with h1 | ⟨t, m1, m2, m3, m4, m5, m6⟩
    · rw [← hst]
      obtain ⟨a, _, c, d, e⟩ := h1
      simp [a, c, d, e]
    · rw [m4] at hc; simp at hc

theorem stack_after_length_pos (stack : List String) (t : PDA_transition)
    (hs : 1 ≤ stack.length) (ht : t.Pop = "λ" ∨ (t.Push ≠ "λ" ∧ t.Push ≠ "")) :
    1 ≤ (stack_after stack t).length := by
  unfold stack_after
  rw [List.length_append]
  rcases ht with h | ⟨h1, h2⟩
  · simp only [h, if_true]; omega
  · have hd : t.Push.data ≠ [] := by
      intro h0
      apply h2
      cases hp : t.Push with
      | mk d => rw [hp] at h0; simp at h0; rw [h0]
    have : 1 ≤ (t.Push.data.map String.singleton).length := by
      rw [List.length_map]
      exact List.length_pos.mpr hd
    simp only [h1, if_false]
    omega

theorem run_iter_stack_pos (input : List UInt8) : ∀ (n : Nat) (st0 st : RunState),
    run_iter input n st0 = some st →
      ∃ l, st.trace = st0.trace ++ l ∧
        (1 ≤ st0.pda.Stack.length →
          (∀ t ∈ l, t.Pop = "λ" ∨ (t.Push ≠ "λ" ∧ t.Push ≠ "")) → 1 ≤ st.pda.Stack.length) := by
  intro n
  induction n with
  | zero =>
    intro st0 st h
    simp only [run_iter, Option.some.injEq] at h
    subst h
    exact ⟨[], by simp, fun h _ => h⟩
  | succ n ih =>
    intro st0 st h
    unfold run_iter at h
    cases hb : loop_body input st0 with
    | none => rw [hb] at h; simp at h
    | some bs =>
      obtain ⟨b, s1⟩ := bs
      rw [hb] at h
      cases b with
      | false => simp at h
      | true =>
        simp only [] at h
        obtain ⟨t, _, _, hp, htr, _⟩ := loop_body_continue _ _ _ hb
        obtain ⟨l, hl, hinv⟩ := ih _ _ h
        refine ⟨t :: l, by rw [hl, htr]; simp, ?_⟩
        intro h0 hall
        apply hinv
        · rw [hp]
          exact stack_after_length_pos _ _ h0 (hall t (by simp))
        · intro u hu
          exact hall u (by simp [hu])

theorem create_pda_loop_eq (v : List String) : ∀ (fuel i : Nat) (acc : List PDA_transition),
    (v.length - i) / 5 ≤ fuel →
      create_pda_loop v fuel i acc =
        acc ++ (List.range ((v.length - i) / 5)).map (fun j => quintuple v (i + 5 * j)) := by
  intro fuel
  induction fuel with
  | zero =>
    intro i acc h
    have h0 : (v.length - i) / 5 = 0 := by omega
    simp [create_pda_loop, h0]
  | succ fuel ih =>
    intro i acc h
    unfold create_pda_loop
    by_cases hi : i + 5 ≤ v.length
    · have hm : (v.length - i) / 5 = (v.length - (i + 5)) / 5 + 1 := by omega
      rw [if_pos hi, ih (i + 5) _ (by omega), hm, List.range_succ_eq_map]
      simp only [List.map_cons, List.map_map, List.append_assoc, List.singleton_append]
      congr 2
      apply List.map_congr_left
      intro j _
      simp only [Function.comp, Nat.succ_eq_add_one]
      congr 1
      omega
    · have h0 : (v.length - i) / 5 = 0 := by omega
      rw [if_neg hi, h0]
      simp

theorem create_pda_transitions (settings : PDA_settings) :
    (create_pda settings).Transitions =
      (List.range ((delta_tokens settings.Delta).length / 5)).map
        (fun k => quintuple (delta_tokens settings.Delta) (5 * k)) := by
  unfold create_pda
  simp only []
  rw [create_pda_loop_eq _ _ _ _ (by omega)]
  simp

theorem replaceScan_single (c0 : Char) (new : List Char) : ∀ l : List Char,
    replaceScan [c0] new 0 l = l.flatMap (fun c => if c = c0 then new else [c]) := by
  intro l
  induction l with
  | nil => simp [replaceScan]
  | cons c cs ih =>
    by_cases hc : c = c0
    · subst hc
      simp [replaceScan, List.isPrefixOf, ih]
    · have h2 : ¬ c0 = c := fun e => hc e.symm
      simp [replaceScan, List.isPrefixOf, ih, hc, h2]

theorem digitVal_digitChar (k : Nat) (hk : k < 10) : digitVal (Nat.digitChar k) = some k := by
  interval_cases k <;> decide

theorem digitChar_clean (k : Nat) (hk : k < 10) :
    48 ≤ (Nat.digitChar k).toNat ∧ (Nat.digitChar k).toNat ≤ 57 := by
  interval_cases k <;> decide

theorem parseDigits_append (xs ys : List Char) : ∀ acc : Nat,
    parseDigits (xs ++ ys) acc = (parseDigits xs acc).bind (parseDigits ys) := by
  induction xs with
  | nil => intro acc; simp [parseDigits]
  | cons c cs ih =>
    intro acc
    simp only [List.cons_append, parseDigits]
    cases digitVal c with
    | none => simp
    | some d => simp [ih]

theorem toDigitsCore_spec : ∀ (n fuel : Nat) (ds : List Char), n < fuel →
    ∃ pre, Nat.toDigitsCore 10 fuel n ds = pre ++ ds ∧ pre ≠ [] ∧
      (∀ c ∈ pre, 48 ≤ c.toNat ∧ c.toNat ≤ 57) ∧
      ∀ acc, parseDigits pre acc = some (acc * 10 ^ pre.length + n) := by
  intro n
  induction n using Nat.strong_induction_on with
  | _ n ih =>
    intro fuel ds hf
    cases fuel with
    | zero => omega
    | succ fuel =>
      simp only [Nat.toDigitsCore]
      by_cases h0 : n / 10 = 0
      · simp only [h0, if_true]
        have hn : n < 10 := by omega
        refine ⟨[Nat.digitChar (n % 10)], by simp, by simp, ?_, ?_⟩
        · intro c hc
          simp only [List.mem_singleton] at hc
          rw [hc]
          exact digitChar_clean _ (by omega)
        · intro acc
          simp only [parseDigits, digitVal_digitChar _ (Nat.mod_lt _ (by norm_num : 10 > 0)),
            List.length_singleton, pow_one]
          congr 1
          omega
      · simp only [h0, if_false]
        obtain ⟨pre, h1, h2, h3, h4⟩ :=
          ih (n / 10) (by omega) fuel (Nat.digitChar (n % 10) :: ds) (by omega)
        refine ⟨pre ++ [Nat.digitChar (n % 10)], by rw [h1]; simp, by simp, ?_, ?_⟩
        · intro c hc
          rcases List.mem_append.mp hc with hc | hc
          · exact h3 c hc
          · simp only [List.mem_singleton] at hc
            rw [hc]
            exact digitChar_clean _ (Nat.mod_lt _ (by norm_num))
        · intro acc
          rw [parseDigits_append, h4]
          simp only [Option.some_bind, parseDigits,
            digitVal_digitChar _ (Nat.mod_lt _ (by norm_num : 10 > 0)),
            List.length_append, List.length_singleton, pow_succ]
          congr 1
          have := Nat.div_add_mod n 10
          nlinarith [this]

theorem repr_spec (n : Nat) :
    (Nat.repr n).data ≠ [] ∧ (∀ c ∈ (Nat.repr n).data, 48 ≤ c.toNat ∧ c.toNat ≤ 57) ∧
      parseDigits (Nat.repr n).data 0 = some n := by
  obtain ⟨pre, h1, h2, h3, h4⟩ := toDigitsCore_spec n (n + 1) [] (by omega)
  have hd : (Nat.repr n).data = pre := by
    simp [Nat.repr, Nat.toDigits, h1, List.asString]
  rw [hd]
  refine ⟨h2, h3, ?_⟩
  rw [h4 0]
  simp

theorem parseDigits_digits (ds : List Char) : ∀ acc : Nat, ds.all is_digit = true →
    parseDigits ds acc =
      some (Nat.ofDigits 10 (ds.reverse.map (fun c => c.toNat - 48) ++ [acc])) := by
  induction ds with
  | nil => intro acc _; simp [parseDigits]
  | cons c cs ih =>
    intro acc h
    simp only [List.all_cons, Bool.and_eq_true] at h
    have hc : 48 ≤ c.toNat ∧ c.toNat ≤ 57 := by simpa [is_digit] using h.1
    simp only [parseDigits, digitVal, hc, and_self, if_true]
    rw [ih _ h.2]
    simp only [List.reverse_cons, List.map_append, List.map_cons, List.map_nil,
      List.append_assoc, List.singleton_append, Nat.ofDigits_append, Nat.ofDigits_cons,
      Nat.ofDigits_nil, Nat.ofDigits_singleton]
    congr 1
    ring

theorem parseDigits_nondigit (ds : List Char) : ∀ acc : Nat, ds.all is_digit = false →
    parseDigits ds acc = none := by
  induction ds with
  | nil => intro acc h; simp at h
  | cons c cs ih =>
    intro acc h
    by_cases hc : 48 ≤ c.toNat ∧ c.toNat ≤ 57
    · have h2 : cs.all is_digit = false := by
        have hd : is_digit c = true := by simp [is_digit, hc]
        simpa [List.all_cons, hd] using h
      simp only [parseDigits, digitVal, hc, and_self, if_true]
      exact ih _ h2
    · simp [parseDigits, digitVal, hc]

theorem parseDigits_le (ds : List Char) : ∀ n v : Nat, parseDigits ds n = some v → n ≤ v := by
  induction ds with
  | nil => intro n v h; simp [parseDigits] at h; omega
  | cons c cs ih =>
    intro n v h
    simp only [parseDigits] at h
    cases hd : digitVal c with
    | none => simp [hd] at h
    | some d =>
      simp only [hd] at h
      have := ih _ _ h
      omega

theorem takeWhile_digits_all (ds : List Char) : (ds.takeWhile is_digit).all is_digit = true := by
  rw [List.all_eq_true]
  intro c hc
  exact List.mem_takeWhile_imp hc

theorem parseUint_run (ds : List Char) : ∀ n v : Nat, n ≤ maxUint64 →
    parseDigits (ds.takeWhile is_digit) n = some v →
    parseUint ds n =
      if maxUint64 < v then ParseResult.overflow
      else if ds.all is_digit = true then ParseResult.value v else ParseResult.malformed := by
  induction ds with
  | nil =>
    intro n v hn h
    simp only [List.takeWhile_nil, parseDigits, Option.some.injEq] at h
    subst h
    simp [parseUint, Nat.not_lt.mpr hn]
  | cons c cs ih =>
    intro n v hn h
    by_cases hc : 48 ≤ c.toNat ∧ c.toNat ≤ 57
    · have hd : is_digit c = true := by simp [is_digit, hc]
      have hv : digitVal c = some (c.toNat - 48) := by simp [digitVal, hc]
      simp only [List.takeWhile_cons, hd, if_true, parseDigits, hv] at h
      have hle := parseDigits_le _ _ _ h
      simp only [parseUint, hv, List.all_cons, hd, Bool.true_and]
      by_cases h1 : maxUint64 / 10 + 1 ≤ n
      · have : maxUint64 < v := by
          unfold maxUint64 at h1 ⊢
          norm_num at h1 ⊢
          omega
        simp [h1, this]
      · by_cases h2 : maxUint64 < n * 10 + (c.toNat - 48)
        · have : maxUint64 < v := by omega
          simp [h1, h2, this]
        · simp only [h1, h2, if_false]
          exact ih _ _ (by omega) h
    · have hd : is_digit c = false := by simp [is_digit, hc]
      have hv : digitVal c = none := by simp [digitVal, hc]
      simp only [List.takeWhile_cons, hd, parseDigits, Option.some.injEq] at h
      subst h
      simp [parseUint, hv, hd, Nat.not_lt.mpr hn]

theorem utf8ByteSize_go_ge (cs : List Char) : cs.length ≤ String.utf8ByteSize.go cs := by
  induction cs with
  | nil => simp [String.utf8ByteSize.go]
  | cons c cs ih =>
    simp only [String.utf8ByteSize.go, List.length_cons]
    have := Char.utf8Size_pos c
    omega

theorem utf8ByteSize_ge (s : String) : s.data.length ≤ s.utf8ByteSize := by
  cases s with
  | mk d => exact utf8ByteSize_go_ge d

theorem strip_sign_length (cs : List Char) : (strip_sign cs).length ≤ cs.length := by
  unfold strip_sign
  split <;> simp

theorem parseDigits_bound (ds : List Char) : ∀ n v : Nat, parseDigits ds n = some v →
    v < (n + 1) * 10 ^ ds.length := by
  induction ds with
  | nil => intro n v h; simp [parseDigits] at h; subst h; simp
  | cons c cs ih =>
    intro n v h
    simp only [parseDigits] at h
    by_cases hc : 48 ≤ c.toNat ∧ c.toNat ≤ 57
    · have hv : digitVal c = some (c.toNat - 48) := by simp [digitVal, hc]
      simp only [hv] at h
      have h1 := ih _ _ h
      have h2 : n * 10 + (c.toNat - 48) + 1 ≤ (n + 1) * 10 := by omega
      calc v < (n * 10 + (c.toNat - 48) + 1) * 10 ^ cs.length := h1
        _ ≤ ((n + 1) * 10) * 10 ^ cs.length := Nat.mul_le_mul_right _ h2
        _ = (n + 1) * 10 ^ (c :: cs).length := by simp [pow_succ]; ring
    · have hv : digitVal c = none := by simp [digitVal, hc]
      simp [hv] at h



theorem parseDigits_all (ds : List Char) (n v : Nat) (h : parseDigits ds n = some v) :
    ds.all is_digit = true := by
  cases hall : ds.all is_digit with
  | true => rfl
  | false => rw [parseDigits_nondigit ds n hall] at h; cases h

theorem takeWhile_of_all (ds : List Char) (h : ds.all is_digit = true) :
    ds.takeWhile is_digit = ds := by
  rw [List.takeWhile_eq_self_iff]
  intro c hc
  exact (List.all_eq_true.mp h) c hc

theorem strip_sign_ne_nil (cs : List Char) (h : strip_sign cs ≠ []) : cs ≠ [] := by
  intro e
  rw [e] at h
  exact h rfl

theorem Atoi_digits (tok : String) (v : Nat) (hb : strip_sign tok.data ≠ [])
    (h : parseDigits (strip_sign tok.data) 0 = some v) :
    Atoi tok =
      if tok.data.head? = some '-' then max (-(2 : Int) ^ 63) (-(v : Int))
      else min ((2 : Int) ^ 63 - 1) (v : Int) := by
  unfold Atoi
  by_cases hfast : 0 < tok.utf8ByteSize ∧ tok.utf8ByteSize < 19
  · have hlen : (strip_sign tok.data).length ≤ 18 := by
      have h1 := strip_sign_length tok.data
      have h2 := utf8ByteSize_ge tok
      omega
    have hv : v < 10 ^ 18 := by
      have h1 := parseDigits_bound _ _ _ h
      have h2 : 10 ^ (strip_sign tok.data).length ≤ 10 ^ 18 :=
        Nat.pow_le_pow_right (by norm_num) hlen
      omega
    norm_num at hv
    simp only [hfast, and_self, if_true, hb, if_false, h]
    by_cases hneg : tok.data.head? = some '-'
    · simp only [hneg, if_true]
      norm_num
      omega
    · simp only [hneg, if_false]
      norm_num
      omega
  · simp only [hfast, if_false]
    unfold ParseInt
    have hall := parseDigits_all _ _ _ h
    have hrun := parseUint_run (strip_sign tok.data) 0 v (Nat.zero_le _)
      (by rw [takeWhile_of_all _ hall]; exact h)
    simp only [strip_sign_ne_nil _ hb, if_false, hb, hrun, hall, if_true]
    by_cases hov : maxUint64 < v
    · simp only [hov, if_true]
      unfold maxUint64 at hov
      norm_num at hov
      by_cases hneg : tok.data.head? = some '-'
      · simp only [hneg, if_true, decide_True]
        norm_num
        omega
      · simp only [hneg, if_false, decide_False]
        norm_num
        omega
    · simp only [hov, if_false]
      unfold maxUint64 at hov
      norm_num at hov
      by_cases hneg : tok.data.head? = some '-'
      · simp only [hneg, if_true, decide_True]
        norm_num
        split_ifs <;> omega
      · simp only [hneg, if_false, decide_False]
        norm_num
        split_ifs <;> omega

theorem leading_digits_parse (ds : List Char) :
    parseDigits (ds.takeWhile is_digit) 0 =
      some (Nat.ofDigits 10 ((ds.takeWhile is_digit).reverse.map (fun c => c.toNat - 48))) := by
  rw [parseDigits_digits _ 0 (takeWhile_digits_all ds)]
  simp [Nat.ofDigits_append]

theorem Atoi_nondigit (tok : String) (hall : (strip_sign tok.data).all is_digit = false) :
    Atoi tok =
      if maxUint64 < leading_digits_value tok then
        (if tok.data.head? = some '-' then -(2 : Int) ^ 63 else (2 : Int) ^ 63 - 1)
      else 0 := by
  have hb : strip_sign tok.data ≠ [] := by
    intro e
    rw [e] at hall
    simp at hall
  have hp : parseDigits ((strip_sign tok.data).takeWhile is_digit) 0 =
      some (leading_digits_value tok) := leading_digits_parse (strip_sign tok.data)
  unfold Atoi
  by_cases hfast : 0 < tok.utf8ByteSize ∧ tok.utf8ByteSize < 19
  · have hlen : ((strip_sign tok.data).takeWhile is_digit).length ≤ 18 := by
      have h0 := (List.takeWhile_sublist (l := strip_sign tok.data) is_digit).length_le
      have h1 := strip_sign_length tok.data
      have h2 := utf8ByteSize_ge tok
      omega
    have hv : leading_digits_value tok < 10 ^ 18 := by
      have h1 := parseDigits_bound _ _ _ hp
      have h2 : 10 ^ ((strip_sign tok.data).takeWhile is_digit).length ≤ 10 ^ 18 :=
        Nat.pow_le_pow_right (by norm_num) hlen
      omega
    have hno : ¬ maxUint64 < leading_digits_value tok := by
      unfold maxUint64
      norm_num at hv ⊢
      omega
    simp only [hfast, and_self, if_true, hb, if_false, parseDigits_nondigit _ 0 hall, hno]
  · simp only [hfast, if_false]
    unfold ParseInt
    have hrun := parseUint_run (strip_sign tok.data) 0 _ (Nat.zero_le _) hp
    simp only [strip_sign_ne_nil _ hb, if_false, hb, hrun, hall]
    by_cases hov : maxUint64 < leading_digits_value tok
    · simp only [hov, if_true]
      by_cases hneg : tok.data.head? = some '-'
      · simp [hneg]
      · simp [hneg]
    · simp [hov]

theorem Atoi_no_body (tok : String) (hb : strip_sign tok.data = []) : Atoi tok = 0 := by
  unfold Atoi ParseInt
  simp [hb]

theorem Itoa_spec (n : Int) :
    (Itoa n).data ≠ [] ∧
    (∀ c ∈ (Itoa n).data, c = '-' ∨ (48 ≤ c.toNat ∧ c.toNat ≤ 57)) ∧
    (∃ c rest, (Itoa n).data = c :: rest ∧ (c = '-' ∨ (48 ≤ c.toNat ∧ c.toNat ≤ 57))) ∧
    (∃ c, (Itoa n).data.getLast? = some c ∧ 48 ≤ c.toNat ∧ c.toNat ≤ 57) ∧
    (in_int_range n → Atoi (Itoa n) = n) := by
  cases n with
  | ofNat m =>
    obtain ⟨h1, h2, h3⟩ := repr_spec m
    have hI : Itoa (Int.ofNat m) = Nat.repr m := rfl
    rw [hI]
    obtain ⟨c, rest, hcr⟩ := List.exists_cons_of_ne_nil h1
    have hc := h2 c (by rw [hcr]; simp)
    refine ⟨h1, fun c hc => Or.inr (h2 c hc), ⟨c, rest, hcr, Or.inr hc⟩, ?_, ?_⟩
    · refine ⟨(Nat.repr m).data.getLast h1, List.getLast?_eq_getLast _ h1, ?_⟩
      exact h2 _ (List.getLast_mem h1)
    · intro hr
      have hm : (c ≠ '-') ∧ (c ≠ '+') := by
        constructor <;> (intro e; rw [e] at hc; revert hc; decide)
      have hbody : strip_sign (c :: rest) = c :: rest := by
        unfold strip_sign
        split
        · rename_i heq; simp at heq; exact absurd heq.1 hm.1
        · rename_i heq; simp at heq; exact absurd heq.1 hm.2
        · rfl
      have hh : ¬ (Nat.repr m).data.head? = some '-' := by
        rw [hcr]
        simpa using hm.1
      rw [Atoi_digits (Nat.repr m) m (by rw [hcr, hbody]; simp) (by rw [hcr, hbody, ← hcr]; exact h3)]
      simp only [hh, if_false, in_int_range, Int.ofNat_eq_coe] at hr ⊢
      norm_num at hr
      norm_num
      omega
  | negSucc m =>
    obtain ⟨h1, h2, h3⟩ := repr_spec (m + 1)
    have hI : (Itoa (Int.negSucc m)).data = '-' :: (Nat.repr (m + 1)).data := rfl
    rw [hI]
    refine ⟨by simp, ?_, ⟨'-', _, rfl, Or.inl rfl⟩, ?_, ?_⟩
    · intro c hc
      rcases List.mem_cons.mp hc with hc | hc
      · exact Or.inl hc
      · exact Or.inr (h2 c hc)
    · refine ⟨(Nat.repr (m + 1)).data.getLast h1, ?_, h2 _ (List.getLast_mem h1)⟩
      obtain ⟨c, rest, hcr⟩ := List.exists_cons_of_ne_nil h1
      simp only [hcr, List.getLast?_cons_cons]
      exact List.getLast?_eq_getLast _ (by simp)
    · intro hr
      have hh : (Itoa (Int.negSucc m)).data.head? = some '-' := by rw [hI]; rfl
      rw [Atoi_digits (Itoa (Int.negSucc m)) (m + 1) (by rw [hI]; simpa [strip_sign] using h1)
        (by rw [hI]; simpa [strip_sign] using h3)]
      have hr1 : -(2 : Int) ^ 63 ≤ Int.negSucc m := hr.1
      simp only [hh, if_true]
      rw [Int.negSucc_eq] at hr1 ⊢
      push_cast
      norm_num at hr1 ⊢
      omega

theorem joinWith_eq_intercalate (sep : List Char) : ∀ l : List (List Char),
    joinWith sep l = sep.intercalate l := by
  intro l
  induction l with
  | nil => rfl
  | cons a l ih =>
    cases l with
    | nil => simp [joinWith, List.intercalate]
    | cons b l =>
      simp only [joinWith, ih]
      simp [List.intercalate, List.intersperse]

theorem replaceScan_skip (o : Char) (os new : List Char) : ∀ tok rest : List Char, o ∉ tok →
    replaceScan (o :: os) new 0 (tok ++ rest) = tok ++ replaceScan (o :: os) new 0 rest := by
  intro tok
  induction tok with
  | nil => intro rest _; rfl
  | cons c cs ih =>
    intro rest h
    have hc : ¬ o = c := fun e => h (by simp [e])
    have hcs : o ∉ cs := fun e => h (by simp [e])
    have hpre : List.isPrefixOf (o :: os) (c :: (cs ++ rest)) = false := by
      simp [List.isPrefixOf, hc]
    rw [List.cons_append, replaceScan, hpre, ih rest hcs]
    simp

theorem replaceScan_tok (o : Char) (os new tok : List Char) (h : o ∉ tok) :
    replaceScan (o :: os) new 0 tok = tok := by
  have := replaceScan_skip o os new tok [] h
  simpa [replaceScan] using this

/-- The first replacement of `create_pda` on joined tokens. -/
theorem replace_comma_space_join (sep sep1 : List Char)
    (hsep : (sep = [' '] ∧ sep1 = [' ']) ∨ (sep = [',', ' '] ∧ sep1 = [' ']) ∨
      (sep = [','] ∧ sep1 = [','])) :
    ∀ toks : List (List Char), (∀ tok ∈ toks, tok ≠ [] ∧ ' ' ∉ tok ∧ ',' ∉ tok) →
      replaceScan [',', ' '] [' '] 0 (joinWith sep toks) = joinWith sep1 toks := by
  intro toks
  induction toks with
  | nil => intro _; rfl
  | cons a l ih =>
    intro h
    have ha := h a (by simp)
    cases l with
    | nil => simpa [joinWith] using replaceScan_tok ',' [' '] [' '] a ha.2.2
    | cons b l =>
      have hb := h b (by simp)
      have ih2 := ih (fun tok ht => h tok (by simp [ht]))
      obtain ⟨c, rest, hcr⟩ : ∃ c rest, joinWith sep (b :: l) = c :: rest ∧ c ≠ ' ' := by
        obtain ⟨c, cs, hb2⟩ := List.exists_cons_of_ne_nil hb.1
        have hcne : c ≠ ' ' := fun e => hb.2.1 (by rw [hb2, e]; simp)
        cases l with
        | nil => exact ⟨c, cs, by simp [joinWith, hb2], hcne⟩
        | cons d l =>
          exact ⟨c, cs ++ (sep ++ joinWith sep (d :: l)), by simp [joinWith, hb2], hcne⟩
      simp only [joinWith, List.append_assoc]
      rw [replaceScan_skip ',' [' '] [' '] a _ ha.2.2]
      congr 1
      rcases hsep with ⟨h1, h2⟩ | ⟨h1, h2⟩ | ⟨h1, h2⟩
      · subst h1; subst h2
        simp only [List.singleton_append, replaceScan, List.isPrefixOf]
        simp [ih2]
      · subst h1; subst h2
        simp only [List.cons_append, List.nil_append, replaceScan, List.isPrefixOf]
        simp [replaceScan, ih2]
      · subst h1; subst h2
        have hne : ¬ ' ' = c := fun e => hcr.2 e.symm
        have hpre : List.isPrefixOf [',', ' '] (',' :: c :: rest) = false := by
          simp [List.isPrefixOf, hne]
        rw [List.singleton_append, hcr.1, replaceScan, hpre, ← hcr.1, ih2]
        simp

/-- The second replacement of `create_pda` on joined tokens. -/
theorem replace_comma_join (sep1 : List Char) (hsep : sep1 = [' '] ∨ sep1 = [',']) :
    ∀ toks : List (List Char), (∀ tok ∈ toks, ',' ∉ tok) →
      replaceScan [','] [' '] 0 (joinWith sep1 toks) = joinWith [' '] toks := by
  have htok : ∀ tok : List Char, ',' ∉ tok →
      tok.flatMap (fun c => if c = ',' then [' '] else [c]) = tok := by
    intro tok
    induction tok with
    | nil => intro _; rfl
    | cons c cs ih =>
      intro h
      have hc : ¬ c = ',' := fun e => h (by simp [e])
      have hcs : ',' ∉ cs := fun e => h (by simp [e])
      simp [List.flatMap_cons, hc, ih hcs]
  intro toks
  induction toks with
  | nil => intro _; rfl
  | cons a l ih =>
    intro h
    have ha := h a (by simp)
    cases l with
    | nil => simpa [joinWith, replaceScan_single] using htok a ha
    | cons b l =>
      have ih2 := ih (fun tok ht => h tok (by simp [ht]))
      rw [replaceScan_single] at ih2 ⊢
      simp only [joinWith, List.flatMap_append, htok a ha, ih2]
      rcases hsep with h1 | h1 <;> subst h1 <;> simp

theorem joinWith_last (sep x : List Char) : ∀ init : List (List Char),
    ∃ pre, joinWith sep (init ++ [x]) = pre ++ x := by
  intro init
  induction init with
  | nil => exact ⟨[], by simp [joinWith]⟩
  | cons a init ih =>
    obtain ⟨pre, hpre⟩ := ih
    cases hi : init ++ [x] with
    | nil => simp at hi
    | cons b l =>
      rw [hi] at hpre
      refine ⟨a ++ sep ++ pre, ?_⟩
      rw [List.cons_append, hi]
      simp [joinWith, hpre]

theorem isSpace_digit (c : Char) (h : c = '-' ∨ (48 ≤ c.toNat ∧ c.toNat ≤ 57)) :
    isSpace c = false := by
  rcases h with h | h
  · rw [h]; decide
  · simp only [isSpace, Bool.or_eq_false_iff, decide_eq_false_iff_not, Bool.and_eq_false_iff]
    omega

theorem trim_id (l : List Char) (hhead : ∀ c rest, l = c :: rest → isSpace c = false)
    (hlast : ∀ pre c, l = pre ++ [c] → isSpace c = false) :
    (l.dropWhile isSpace).rdropWhile isSpace = l := by
  have h1 : l.dropWhile isSpace = l := by
    cases l with
    | nil => rfl
    | cons c rest => simp [List.dropWhile, hhead c rest rfl]
  rw [h1]
  rcases List.eq_nil_or_concat l with h | ⟨pre, c, h⟩
  · rw [h]; simp
  · rw [List.concat_eq_append] at h
    have hc := hlast pre c h
    rw [h]
    exact List.rdropWhile_concat_neg _ _ _ (by simp [hc])

theorem trim_id2 (l : List Char) (hhead : ∀ c, l.head? = some c → isSpace c = false)
    (hlast : ∀ c, l.getLast? = some c → isSpace c = false) :
    (l.dropWhile isSpace).rdropWhile isSpace = l := by
  apply trim_id
  · intro c rest h
    exact hhead c (by rw [h]; rfl)
  · intro pre c h
    exact hlast c (by rw [h]; simp)

theorem joinWith_head (sep x : List Char) (l : List (List Char)) (hx : x ≠ []) :
    (joinWith sep (x :: l)).head? = x.head? := by
  obtain ⟨c, cs, hc⟩ := List.exists_cons_of_ne_nil hx
  cases l with
  | nil => simp [joinWith]
  | cons b l => simp [joinWith, hc]

theorem joinWith_getLast (sep x : List Char) (init : List (List Char)) (hx : x ≠ []) :
    (joinWith sep (init ++ [x])).getLast? = x.getLast? := by
  obtain ⟨pre, hpre⟩ := joinWith_last sep x init
  rw [hpre, List.getLast?_append_of_ne_nil _ hx]

theorem Itoa_clean (n : Int) :
    (Itoa n).data ≠ [] ∧ ' ' ∉ (Itoa n).data ∧ ',' ∉ (Itoa n).data := by
  obtain ⟨h1, h2, _⟩ := Itoa_spec n
  refine ⟨h1, ?_, ?_⟩
  · intro h
    rcases h2 _ h with h3 | h3
    · revert h3; decide
    · revert h3; decide
  · intro h
    rcases h2 _ h with h3 | h3
    · revert h3; decide
    · revert h3; decide

theorem fields_clean (ts : List PDA_transition)
    (hclean : ∀ t ∈ ts, clean t.Character ∧ clean t.Pop ∧ clean t.Push) :
    ∀ tok ∈ (ts.flatMap fields).map String.data, tok ≠ [] ∧ ' ' ∉ tok ∧ ',' ∉ tok := by
  intro tok htok
  rw [List.mem_map] at htok
  obtain ⟨s, hs, hst⟩ := htok
  rw [List.mem_flatMap] at hs
  obtain ⟨t, ht, hsf⟩ := hs
  obtain ⟨c1, c2, c3⟩ := hclean t ht
  subst hst
  simp only [fields, List.mem_cons, List.mem_singleton, List.not_mem_nil, or_false] at hsf
  rcases hsf with h | h | h | h | h <;> rw [h]
  · exact Itoa_clean _
  · exact c1
  · exact c2
  · exact c3
  · exact Itoa_clean _

theorem encode_trim (sep : List Char) (ts : List PDA_transition) :
    ((joinWith sep ((ts.flatMap fields).map String.data)).dropWhile isSpace).rdropWhile isSpace
      = joinWith sep ((ts.flatMap fields).map String.data) := by
  apply trim_id2
  · intro c hc
    cases ts with
    | nil => simp [joinWith] at hc
    | cons t ts =>
      obtain ⟨h1, _, ⟨c0, rest, h3, h4⟩, _⟩ := Itoa_spec t.StartState
      simp only [List.flatMap_cons, fields, List.cons_append, List.map_cons] at hc
      rw [joinWith_head _ _ _ h1, h3] at hc
      simp only [List.head?_cons, Option.some.injEq] at hc
      rw [← hc]
      exact isSpace_digit c0 h4
  · intro c hc
    rcases List.eq_nil_or_concat ts with h | ⟨ts0, t, h⟩
    · rw [h] at hc; simp [joinWith] at hc
    · obtain ⟨h1, _, _, ⟨c0, h3, h4⟩, _⟩ := Itoa_spec t.FinalState
      have hsplit : (ts.flatMap fields).map String.data =
          ((ts0.flatMap fields).map String.data ++
            [(Itoa t.StartState).data, t.Character.data, t.Pop.data, t.Push.data]) ++
          [(Itoa t.FinalState).data] := by
        rw [h, List.concat_eq_append]
        simp [fields]
      rw [hsplit, joinWith_getLast _ _ _ h1, h3] at hc
      simp only [Option.some.injEq] at hc
      rw [← hc]
      exact isSpace_digit c0 (Or.inr h4)

theorem tokens_of_encode (sep : String) (hsep : sep = " " ∨ sep = ", " ∨ sep = ",")
    (ts : List PDA_transition) (hne : ts ≠ [])
    (hclean : ∀ t ∈ ts, clean t.Character ∧ clean t.Pop ∧ clean t.Push) :
    delta_tokens (encode sep ts) = ts.flatMap fields := by
  have htoks := fields_clean ts hclean
  have hnil : (ts.flatMap fields).map String.data ≠ [] := by
    cases ts with
    | nil => exact absurd rfl hne
    | cons t ts => simp [fields]
  obtain ⟨sep1, hs1, hs2⟩ : ∃ sep1 : List Char,
      ((sep.data = [' '] ∧ sep1 = [' ']) ∨ (sep.data = [',', ' '] ∧ sep1 = [' ']) ∨
        (sep.data = [','] ∧ sep1 = [','])) ∧ (sep1 = [' '] ∨ sep1 = [',']) := by
    rcases hsep with h | h | h
    · exact ⟨[' '], Or.inl ⟨by rw [h], rfl⟩, Or.inl rfl⟩
    · exact ⟨[' '], Or.inr (Or.inl ⟨by rw [h], rfl⟩), Or.inl rfl⟩
    · exact ⟨[','], Or.inr (Or.inr ⟨by rw [h], rfl⟩), Or.inr rfl⟩
  have hdata : (Replace (Replace (TrimSpace (encode sep ts)) ", " " ") "," " ").data =
      joinWith [' '] ((ts.flatMap fields).map String.data) := by
    show replaceScan [','] [' '] 0 (replaceScan [',', ' '] [' '] 0
      (((sep.data.intercalate ((ts.flatMap fields).map String.data)).dropWhile isSpace).rdropWhile
        isSpace)) = _
    rw [← joinWith_eq_intercalate, encode_trim,
      replace_comma_space_join sep.data sep1 hs1 _ htoks,
      replace_comma_join sep1 hs2 _ (fun tok ht => (htoks tok ht).2.2)]
  show Split (Replace (Replace (TrimSpace (encode sep ts)) ", " " ") "," " ") ' ' = _
  unfold Split
  rw [hdata, joinWith_eq_intercalate,
    List.splitOn_intercalate _ ' ' (fun l hl => (htoks l hl).2.1) hnil, List.map_map]
  have hid : (String.mk ∘ String.data) = id := by funext l; rfl
  rw [hid, List.map_id]

theorem quintuples_of_fields : ∀ ts : List PDA_transition,
    (∀ t ∈ ts, in_int_range t.StartState ∧ in_int_range t.FinalState) →
      (List.range ts.length).map (fun k => quintuple (ts.flatMap fields) (5 * k)) = ts := by
  intro ts
  induction ts with
  | nil => intro _; rfl
  | cons t ts ih =>
    intro h
    obtain ⟨r1, r2⟩ := h t (by simp)
    have a1 := (Itoa_spec t.StartState).2.2.2.2 r1
    have a2 := (Itoa_spec t.FinalState).2.2.2.2 r2
    rw [List.length_cons, List.range_succ_eq_map, List.map_cons, List.map_map]
    congr 1
    · simp [quintuple, fields, a1, a2]
    · refine Eq.trans ?_ (ih (fun u hu => h u (by simp [hu])))
      apply List.map_congr_left
      intro k _
      have hk : 5 * (k + 1) = 5 * k + 5 := by omega
      simp [quintuple, fields, hk]

theorem slice_view_length (h : Heap) (s : GoSlice) (hok : slice_ok h s) :
    (slice_view h s).length = s.len := by
  unfold slice_view
  rw [List.length_take]
  have := hok.1
  have := hok.2
  omega

theorem slice_get_top (h : Heap) (s : GoSlice) (hok : slice_ok h s) :
    slice_get h s ((s.len : Int) - 1) = (slice_view h s).getLast? := by
  unfold slice_get slice_view
  by_cases h0 : s.len = 0
  · simp [h0]
  · have hpos : 0 ≤ (s.len : Int) - 1 ∧ (s.len : Int) - 1 < (s.len : Int) := by omega
    have hnat : ((s.len : Int) - 1).toNat = s.len - 1 := by omega
    simp only [hpos, and_self, if_true, hnat, List.get?_eq_getElem?]
    rw [List.getLast?_eq_getElem?, List.length_take]
    have h1 := hok.1
    have h2 := hok.2
    have hmin : min s.len (h.getD s.ptr []).length = s.len := by omega
    rw [hmin, List.getElem?_take_of_lt (by omega)]

theorem slice_to_pop (h : Heap) (s : GoSlice) (hok : slice_ok h s) :
    (s.len = 0 → slice_to s ((s.len : Int) - 1) = none) ∧
    (s.len ≠ 0 → ∃ s1, slice_to s ((s.len : Int) - 1) = some s1 ∧ slice_ok h s1 ∧
      slice_view h s1 = (slice_view h s).dropLast) := by
  constructor
  · intro h0
    simp [slice_to, h0]
  · intro h0
    have h1 := hok.1
    have h2 := hok.2
    have hb : 0 ≤ (s.len : Int) - 1 ∧ (s.len : Int) - 1 ≤ (s.cap : Int) := by omega
    have hnat : ((s.len : Int) - 1).toNat = s.len - 1 := by omega
    refine ⟨{ s with len := s.len - 1 }, by simp [slice_to, hb, hnat], ⟨by simp; omega, h2⟩, ?_⟩
    unfold slice_view
    rw [List.dropLast_eq_take, List.take_take, List.length_take]
    congr 1
    simp only []
    omega

theorem go_append_spec (grow : Nat → Nat) (h : Heap) (s : GoSlice) (x : String)
    (hok : slice_ok h s) :
    slice_ok (go_append grow h s x).1 (go_append grow h s x).2 ∧
      slice_view (go_append grow h s x).1 (go_append grow h s x).2 = slice_view h s ++ [x] := by
  have h1 := hok.1
  have h2 := hok.2
  unfold go_append
  by_cases hlt : s.len < s.cap
  · simp only [hlt, if_true]
    have hptr : s.ptr < h.length := by
      by_contra hge
      have : h.getD s.ptr [] = [] := by
        simp [List.getD_eq_getElem?_getD, List.getElem?_eq_none (by omega : h.length ≤ s.ptr)]
      rw [this] at h2
      simp at h2
      omega
    have hget : (h.set s.ptr ((h.getD s.ptr []).set s.len x)).getD s.ptr [] =
        (h.getD s.ptr []).set s.len x := by
      simp [List.getD_eq_getElem?_getD, List.getElem?_set_self hptr]
    refine ⟨⟨by simp; omega, by rw [hget, List.length_set]; exact h2⟩, ?_⟩
    unfold slice_view
    simp only [hget]
    rw [List.take_succ, List.getElem?_set_self (by omega), List.set_take,
      List.set_eq_of_length_le (by rw [List.length_take]; omega)]
    simp
  · simp only [hlt, if_false]
    have hlen : s.len = s.cap := by omega
    have hg : s.cap + 1 ≤ grow_cap grow s.cap := by
      unfold grow_cap
      split <;> omega
    have hv := slice_view_length h s hok
    have hget : (h ++ [slice_view h s ++ [x] ++
        List.replicate (grow_cap grow s.cap - (s.len + 1)) ""]).getD h.length [] =
        slice_view h s ++ [x] ++ List.replicate (grow_cap grow s.cap - (s.len + 1)) "" := by
      simp [List.getD_eq_getElem?_getD]
    refine ⟨⟨by simp; omega, ?_⟩, ?_⟩
    · simp only [hget]
      simp [hv]
      omega
    · show List.take (s.len + 1) ((h ++ [slice_view h s ++ [x] ++
        List.replicate (grow_cap grow s.cap - (s.len + 1)) ""]).getD h.length []) =
          slice_view h s ++ [x]
      rw [hget, List.take_left' (by simp [hv])]

theorem mem_push_fold (grow : Nat → Nat) (cs : List Char) :
    ∀ (h : Heap) (s : GoSlice), slice_ok h s →
    slice_ok (cs.foldl (fun hs char => go_append grow hs.1 hs.2 (String.singleton char)) (h, s)).1
        (cs.foldl (fun hs char => go_append grow hs.1 hs.2 (String.singleton char)) (h, s)).2 ∧
      slice_view (cs.foldl (fun hs char => go_append grow hs.1 hs.2 (String.singleton char)) (h, s)).1
        (cs.foldl (fun hs char => go_append grow hs.1 hs.2 (String.singleton char)) (h, s)).2 =
        slice_view h s ++ cs.map String.singleton := by
  induction cs with
  | nil => intro h s hok; exact ⟨hok, by simp⟩
  | cons c cs ih =>
    intro h s hok
    obtain ⟨a1, a2⟩ := go_append_spec grow h s (String.singleton c) hok
    obtain ⟨b1, b2⟩ := ih _ _ a1
    simp only [List.foldl_cons]
    refine ⟨b1, ?_⟩
    rw [b2, a2]
    simp

theorem mem_push_runes_spec (grow : Nat → Nat) (h : Heap) (s : GoSlice) (push : String)
    (hok : slice_ok h s) :
    slice_ok (Mem.push_runes grow h s push).1 (Mem.push_runes grow h s push).2 ∧
      slice_view (Mem.push_runes grow h s push).1 (Mem.push_runes grow h s push).2 =
        push_runes (slice_view h s) push := by
  rw [push_runes_eq]
  exact mem_push_fold grow push.data h s hok

theorem mem_find_sim (h : Heap) (pda : Mem.PDA) (character : String)
    (hok : slice_ok h pda.Stack) :
    Mem.find_transitions_pda h pda character =
      (find_transitions_pda (Mem.view h pda) character).map Prod.snd := by
  unfold Mem.find_transitions_pda find_transitions_pda
  rw [slice_get_top h _ hok, Option.map_map]
  simp [Mem.view, Function.comp]

theorem mem_step_sim (grow : Nat → Nat) (h : Heap) (pda : Mem.PDA) (character : String)
    (stdin : List Int)
    (hok : slice_ok h pda.Stack) :
    (Mem.step_pda grow h pda character stdin).map Mem.StepResult.abs =
        step_pda (Mem.view h pda) character stdin ∧
      ∀ r, Mem.step_pda grow h pda character stdin = some r → slice_ok r.heap r.pda.Stack := by
  unfold Mem.step_pda step_pda
  rw [mem_find_sim h pda character hok]
  cases hf : find_transitions_pda (Mem.view h pda) character with
  | none => simp
  | some pts =>
    obtain ⟨p, ts⟩ := pts
    obtain ⟨hp, _⟩ := find_transitions_pda_of_some _ _ _ _ hf
    subst hp
    simp only [Option.map_some']
    by_cases hlen0 : ts.length = 0
    · simp only [hlen0, if_true, Option.map_some', Option.some.injEq]
      refine ⟨rfl, ?_⟩
      intro r hr
      rw [← hr]
      exact hok
    · simp only [hlen0, if_false]
      generalize (if ts.length > 1 then Scanf stdin 0 else ((0 : Int), stdin)) = choice
      obtain ⟨idx, rest⟩ := choice
      simp only []
      by_cases hidx : idx < 0 ∨ (ts.length : Int) ≤ idx
      · simp [hidx]
      · simp only [hidx, if_false]
        cases hget : ts.get? idx.toNat with
        | none => simp
        | some t =>
          simp only []
          have hvl : (Mem.view h pda).Stack.length = pda.Stack.len :=
            slice_view_length h pda.Stack hok
          obtain ⟨hz, hnz⟩ := slice_to_pop h pda.Stack hok
          by_cases hpop : t.Pop = lam
          · by_cases hpush : t.Push = lam
            · simp only [hpop, hpush, ne_eq, not_true_eq_false, if_false, Option.map_some',
                Option.some.injEq]
              refine ⟨rfl, ?_⟩
              intro r hr
              rw [← hr]
              exact hok
            · obtain ⟨q1, q2⟩ := mem_push_runes_spec grow h pda.Stack t.Push hok
              simp only [hpop, hpush, ne_eq, not_true_eq_false, not_false_eq_true, if_false,
                if_true, Option.map_some', Option.some.injEq]
              refine ⟨?_, ?_⟩
              · simp only [Mem.StepResult.abs, Mem.view, q2]
              · intro r hr
                rw [← hr]
                exact q1
          · by_cases hl0 : pda.Stack.len = 0
            · have hl1 : (Mem.view h pda).Stack.length = 0 := by rw [hvl, hl0]
              simp [hpop, hz hl0, hl1]
            · obtain ⟨s1, hs1, hs2, hs3⟩ := hnz hl0
              have hl1 : (Mem.view h pda).Stack.length ≠ 0 := by rw [hvl]; exact hl0
              by_cases hpush : t.Push = lam
              · simp only [hpop, hpush, hs1, hl1, ne_eq, not_true_eq_false, not_false_eq_true,
                  if_false, if_true, Option.map_some', Option.some.injEq]
                refine ⟨?_, ?_⟩
                · simp only [Mem.StepResult.abs, Mem.view, hs3]
                · intro r hr
                  rw [← hr]
                  exact hs2
              · obtain ⟨q1, q2⟩ := mem_push_runes_spec grow h s1 t.Push hs2
                simp only [hpop, hpush, hs1, hl1, ne_eq, not_true_eq_false, not_false_eq_true,
                  if_false, if_true, Option.map_some', Option.some.injEq]
                refine ⟨?_, ?_⟩
                · simp only [Mem.StepResult.abs, Mem.view, q2, hs3]
                · intro r hr
                  rw [← hr]
                  exact q1

theorem mem_run_loop_sim (grow : Nat → Nat) (input : List UInt8) :
    ∀ (fuel : Nat) (st : Mem.RunState),
    slice_ok st.heap st.pda.Stack →
      (Mem.run_loop grow input fuel st).map Mem.RunState.abs = run_loop input fuel st.abs := by
  intro fuel
  induction fuel with
  | zero => intro st _; rfl
  | succ fuel ih =>
    intro st hok
    obtain ⟨hsim, hok1⟩ := mem_step_sim grow st.heap st.pda (next_char input st.input_index)
      st.stdin hok
    unfold Mem.run_loop run_loop loop_body
    have habs : step_pda st.abs.pda (next_char input st.abs.input_index) st.abs.stdin =
        (Mem.step_pda grow st.heap st.pda (next_char input st.input_index) st.stdin).map
          Mem.StepResult.abs := hsim.symm
    rw [habs]
    cases hs : Mem.step_pda grow st.heap st.pda (next_char input st.input_index) st.stdin with
    | none => rfl
    | some r =>
      simp only [Option.map_some']
      have hr := hok1 r hs
      cases hc : r.do_continue with
      | true =>
        have hc2 : (Mem.StepResult.abs r).do_continue = true := hc
        simp only [hc2, if_true]
        rw [ih _ hr]
        rfl
      | false =>
        have hc2 : (Mem.StepResult.abs r).do_continue = false := hc
        simp only [hc2, Bool.false_eq_true, if_false]
        rfl

/-- Within one run the memory-level engine and the engine on stack contents agree: on a
well-formed stack slice `Mem.run_pda` returns the verdict that `run_pda` returns on the
machine as the callee sees it. -/
theorem mem_run_pda_sim (grow : Nat → Nat) (h : Heap) (pda : Mem.PDA) (input : List UInt8)
    (stdin : List Int)
    (fuel : Nat) (hok : slice_ok h pda.Stack) :
    (Mem.run_pda grow h pda input stdin fuel).map (fun r => r.accepted) =
      run_pda (Mem.view h pda) input stdin fuel := by
  have hsim := mem_run_loop_sim grow input fuel
    { heap := h, pda := pda, input_index := 0, stdin := stdin, trace := [] } hok
  unfold Mem.run_pda run_pda
  have hinit : run_init (Mem.view h pda) stdin =
      Mem.RunState.abs { heap := h, pda := pda, input_index := 0, stdin := stdin, trace := [] } :=
    rfl
  rw [hinit, ← hsim]
  cases Mem.run_loop grow input fuel
      { heap := h, pda := pda, input_index := 0, stdin := stdin, trace := [] } with
  | ok st => rfl
  | panic => rfl
  | unfinished => rfl

/-- The machine that `Mem.create_pda` allocates is, as its holder sees it, the machine of
`create_pda`, on a well-formed slice of length 1 and capacity 1. -/
theorem mem_create_pda_view (grow : Nat → Nat) (h : Heap) (settings : PDA_settings) :
    slice_ok (Mem.create_pda grow h settings).1 (Mem.create_pda grow h settings).2.Stack ∧
      (Mem.create_pda grow h settings).2.Stack.len = 1 ∧
      (Mem.create_pda grow h settings).2.Stack.cap = 1 ∧
      Mem.view (Mem.create_pda grow h settings).1 (Mem.create_pda grow h settings).2 =
        create_pda settings := by
  have hnil : slice_ok h nil_slice := ⟨Nat.le_refl _, Nat.zero_le _⟩
  obtain ⟨a1, a2⟩ := go_append_spec grow h nil_slice settings.Z hnil
  refine ⟨a1, rfl, rfl, ?_⟩
  simp only [Mem.view, Mem.create_pda, a2]
  simp [slice_view, nil_slice, create_pda]

theorem Atoi_numeral (tok : String) :
    (∀ n, numeral_value tok = some n → in_int_range n → Atoi tok = n) ∧
    (∀ n, numeral_value tok = some n → ¬ in_int_range n → Atoi tok = int_bound tok) ∧
    (numeral_value tok = none → leading_digits_value tok < 2 ^ 64 → Atoi tok = 0) ∧
    (numeral_value tok = none → 2 ^ 64 ≤ leading_digits_value tok →
      Atoi tok = int_bound tok) := by
  by_cases hb : strip_sign tok.data = []
  · have hnv : numeral_value tok = none := by simp [numeral_value, hb]
    have hl : leading_digits_value tok = 0 := by simp [leading_digits_value, hb]
    rw [hnv, hl, Atoi_no_body tok hb]
    simp
  · cases hall : (strip_sign tok.data).all is_digit with
    | false =>
      have hnv : numeral_value tok = none := by simp [numeral_value, hall]
      rw [hnv, Atoi_nondigit tok hall]
      refine ⟨by simp, by simp, ?_, ?_⟩
      · intro _ h
        have : ¬ maxUint64 < leading_digits_value tok := by
          unfold maxUint64
          norm_num at h ⊢
          omega
        simp [this]
      · intro _ h
        have : maxUint64 < leading_digits_value tok := by
          unfold maxUint64
          norm_num at h ⊢
          omega
        simp [this, int_bound]
    | true =>
      have hp := parseDigits_digits _ 0 hall
      simp only [Nat.ofDigits_append, Nat.ofDigits_singleton, mul_zero, add_zero] at hp
      have hnv : numeral_value tok = some
          (if tok.data.head? = some '-' then
            -((Nat.ofDigits 10 ((strip_sign tok.data).reverse.map (fun c => c.toNat - 48)) : Nat)
              : Int)
          else ((Nat.ofDigits 10 ((strip_sign tok.data).reverse.map (fun c => c.toNat - 48))
              : Nat) : Int)) := by
        simp [numeral_value, hb, hall]
      rw [hnv, Atoi_digits tok _ hb hp]
      refine ⟨?_, ?_, by simp, by simp⟩
      · intro n hn hr
        simp only [Option.some.injEq] at hn
        subst hn
        unfold in_int_range at hr
        norm_num at hr
        by_cases hneg : tok.data.head? = some '-'
        · simp only [hneg, if_true] at hr ⊢
          norm_num
          omega
        · simp only [hneg, if_false] at hr ⊢
          norm_num
          omega
      · intro n hn hr
        simp only [Option.some.injEq] at hn
        subst hn
        unfold in_int_range at hr
        norm_num at hr
        unfold int_bound
        by_cases hneg : tok.data.head? = some '-'
        · simp only [hneg, if_true] at hr ⊢
          norm_num
          omega
        · simp only [hneg, if_false] at hr ⊢
          norm_num
          omega

theorem next_char_past_end (input : List UInt8) (i : Nat) (h : input.length ≤ i) :
    next_char input i = "" := by
  unfold next_char
  rw [List.get?_eq_none.mpr h]

theorem run_loop_unfinished (input : List UInt8) : ∀ (fuel : Nat) (st : RunState),
    run_loop input fuel st = Outcome.unfinished → ∃ st1, run_iter input fuel st = some st1 := by
  intro fuel
  induction fuel with
  | zero => intro st _; exact ⟨st, rfl⟩
  | succ fuel ih =>
    intro st h
    unfold run_loop at h
    unfold run_iter
    cases hb : loop_body input st with
    | none => rw [hb] at h; simp at h
    | some bs =>
      obtain ⟨b, s1⟩ := bs
      rw [hb] at h
      cases b with
      | true => exact ih _ h
      | false => simp at h

theorem run_loop_ok_iter (input : List UInt8) : ∀ (fuel : Nat) (st0 st : RunState),
    run_loop input fuel st0 = Outcome.ok st →
      ∃ n, n < fuel ∧ run_iter input n st0 = some st ∧ loop_body input st = some (false, st) := by
  intro fuel
  induction fuel with
  | zero => intro st0 st h; simp [run_loop] at h
  | succ fuel ih =>
    intro st0 st h
    unfold run_loop at h
    cases hb : loop_body input st0 with
    | none => rw [hb] at h; simp at h
    | some bs =>
      obtain ⟨b, s1⟩ := bs
      rw [hb] at h
      cases b with
      | true =>
        obtain ⟨n, hn, hr, hl⟩ := ih _ _ h
        refine ⟨n + 1, by omega, ?_, hl⟩
        unfold run_iter
        rw [hb]
        exact hr
      | false =>
        simp only [Outcome.ok.injEq] at h
        subst h
        have hs := loop_body_stop _ _ _ hb
        subst hs
        exact ⟨0, by omega, rfl, hb⟩

/-- Along the successful steps of a run the table is the one of the start, the trace grows
by transitions of the table, and the cursor moves forward only on a symbol of the input as
long as no applied transition has the empty string as input symbol. -/
theorem run_iter_invariants (input : List UInt8) : ∀ (n : Nat) (st0 st : RunState),
    run_iter input n st0 = some st →
      st.pda.Transitions = st0.pda.Transitions ∧ st.pda.Settings = st0.pda.Settings ∧
      (∃ l, st.trace = st0.trace ++ l ∧ l.length = n ∧ ∀ t ∈ l, t ∈ st0.pda.Transitions) ∧
      ((∀ t ∈ st0.pda.Transitions, t.Character ≠ "") → st0.input_index ≤ input.length →
        st.input_index ≤ input.length) ∧
      ((∀ t ∈ st0.pda.Transitions, t.Character ≠ "λ") →
        st.input_index = st0.input_index + n) := by
  intro n
  induction n with
  | zero =>
    intro st0 st h
    simp only [run_iter, Option.some.injEq] at h
    subst h
    exact ⟨rfl, rfl, ⟨[], by simp, rfl, by simp⟩, fun _ h => h, fun _ => rfl⟩
  | succ n ih =>
    intro st0 st h
    unfold run_iter at h
    cases hb : loop_body input st0 with
    | none => rw [hb] at h; simp at h
    | some bs =>
      obtain ⟨b, s1⟩ := bs
      rw [hb] at h
      cases b with
      | false => simp at h
      | true =>
        simp only [] at h
        obtain ⟨t, htm, hap, hp, htr, hidx⟩ := loop_body_continue _ _ _ hb
        obtain ⟨f2, f1⟩ := loop_body_frame _ _ _ _ hb
        obtain ⟨i1, i2, ⟨l, hl, hlen, hmem⟩, i4, i5⟩ := ih _ _ h
        simp only [applies, decide_eq_true_eq] at hap
        refine ⟨i1.trans f1, i2.trans f2, ⟨t :: l, by rw [hl, htr]; simp, by simp [hlen], ?_⟩,
          ?_, ?_⟩
        · intro u hu
          rcases List.mem_cons.mp hu with hu | hu
          · rw [hu]; exact htm
          · rw [← f1]; exact hmem u hu
        · intro hne h0
          apply i4 (fun u hu => hne u (by rw [← f1]; exact hu))
          rw [hidx]
          by_cases hlam : t.Character = "λ"
          · simp [hlam, h0]
          · simp only [hlam, if_false]
            by_contra hgt
            have hpast : input.length ≤ st0.input_index := by omega
            have hc := hap.2.1
            rw [next_char_past_end _ _ hpast] at hc
            rcases hc with hc | hc
            · exact hne t htm hc
            · exact hlam hc
        · intro hne
          rw [i5 (fun u hu => hne u (by rw [← f1]; exact hu)), hidx]
          simp only [hne t htm, if_false]
          omega

theorem step_pda_none (pda : PDA) (character : String) (stdin : List Int) (h : pda.Stack ≠ [])
    (hnone : step_pda pda character stdin = none) :
    1 < (pda.Transitions.filter (applies pda character)).length ∧
      ((Scanf stdin 0).1 < 0 ∨
        ((pda.Transitions.filter (applies pda character)).length : Int) ≤ (Scanf stdin 0).1) := by
  rw [step_pda_eq pda character stdin h] at hnone
  by_cases hlen0 : (pda.Transitions.filter (applies pda character)).length = 0
  · simp [hlen0] at hnone
  · simp only [hlen0, if_false] at hnone
    by_cases hgt : (pda.Transitions.filter (applies pda character)).length > 1
    · simp only [hgt, if_true] at hnone
      refine ⟨hgt, ?_⟩
      by_contra hidx
      simp only [hidx, if_false] at hnone
      have hlt : (Scanf stdin 0).1.toNat <
          (pda.Transitions.filter (applies pda character)).length := by omega
      rw [List.get?_eq_getElem?, List.getElem?_eq_getElem hlt] at hnone
      simp at hnone
    · simp only [hgt, if_false] at hnone
      have hidx : ¬ ((0 : Int) < 0 ∨
          ((pda.Transitions.filter (applies pda character)).length : Int) ≤ 0) := by omega
      have hlt : (0 : Int).toNat < (pda.Transitions.filter (applies pda character)).length := by
        simp; omega
      simp only [hidx, if_false] at hnone
      rw [List.get?_eq_getElem?, List.getElem?_eq_getElem hlt] at hnone
      simp at hnone

theorem default_Z_fields (s : PDA_settings) :
    (default_Z s).Delta = s.Delta ∧ (default_Z s).Q0 = s.Q0 ∧ (default_Z s).F = s.F ∧
      (default_Z s).Z = (if s.Z = "" then "Z" else s.Z) := by
  unfold default_Z
  split <;> simp [*]

theorem default_Q0_fields (s : PDA_settings) :
    (default_Q0 s).Delta = s.Delta ∧ (default_Q0 s).Z = s.Z ∧ (default_Q0 s).F = s.F ∧
      (default_Q0 s).Q0 = (if s.Q0 = -1234 then 0 else s.Q0) := by
  unfold default_Q0
  split <;> simp [*]

/-- What `load_command` does with a decoded document: it always yields a loaded machine;
its start state is the document's `q0` unless that is absent or equal to -1234, and 0
otherwise; its start stack holds the document's `Z` unless that is absent or empty, and
"Z" otherwise; `F` is the document's list, empty when absent. -/
theorem load_command_defaults (grow : Nat → Nat) (h : Heap) (doc : Document)
    (state : Mem.GOFLAP_State) :
    (Mem.load_command grow h (some (some doc)) state).2.Loaded = true ∧
    (Mem.load_command grow h (some (some doc)) state).2.PushDownAutomata.State =
      (if doc.q0 = none ∨ doc.q0 = some (-1234) then 0 else doc.q0.getD 0) ∧
    (Mem.view (Mem.load_command grow h (some (some doc)) state).1
        (Mem.load_command grow h (some (some doc)) state).2.PushDownAutomata).Stack =
      [if doc.Z = none ∨ doc.Z = some "" then "Z" else doc.Z.getD "Z"] ∧
    (Mem.load_command grow h (some (some doc)) state).2.PushDownAutomata.Settings.F =
      doc.F.getD [] := by
  obtain ⟨d, q, z, f⟩ := doc
  have hview := fun s => (mem_create_pda_view grow h s).2.2.2
  refine ⟨rfl, ?_, ?_, ?_⟩
  · show (default_Q0 (default_Z (Unmarshal _ _))).Q0 = _
    rw [(default_Q0_fields _).2.2.2, (default_Z_fields _).2.1]
    cases q with
    | none => simp [Unmarshal]
    | some q =>
      by_cases hq : q = -1234
      · simp [Unmarshal, hq]
      · simp [Unmarshal, hq]
  · simp only [Mem.load_command]
    rw [hview]
    show [(default_Q0 (default_Z (Unmarshal _ _))).Z] = _
    rw [(default_Q0_fields _).2.1, (default_Z_fields _).2.2.2]
    cases z with
    | none => simp [Unmarshal]
    | some z =>
      by_cases hz : z = ""
      · simp [Unmarshal, hz]
      · simp [Unmarshal, hz]
  · show (default_Q0 (default_Z (Unmarshal _ _))).F = _
    rw [(default_Q0_fields _).2.2.1, (default_Z_fields _).2.2.1]
    rfl

theorem pops_append (a b : List PDA_transition) : pops (a ++ b) = pops a + pops b := by
  simp [pops]

theorem pushed_append (a b : List PDA_transition) : pushed (a ++ b) = pushed a + pushed b := by
  simp [pushed]

theorem stack_after_length (pda : PDA) (character : String) (t : PDA_transition)
    (h : applies pda character t = true) :
    (stack_after pda.Stack t).length + pops [t] = pda.Stack.length + pushed [t] := by
  unfold applies at h
  simp only [decide_eq_true_eq] at h
  obtain ⟨_, _, hpop⟩ := h
  unfold stack_after pops pushed
  by_cases hp : t.Pop = "λ"
  · by_cases hq : t.Push = "λ" <;> simp [hp, hq]
  · have htop : pda.Stack.getLast? = some t.Pop := by
      rcases hpop with h | h
      · exact absurd h hp
      · exact h
    have hne : pda.Stack ≠ [] := by
      intro e
      rw [e] at htop
      simp at htop
    have hlen : 1 ≤ pda.Stack.length := List.length_pos.mpr hne
    by_cases hq : t.Push = "λ" <;> simp [hp, hq] <;> omega

theorem run_iter_stack_length (input : List UInt8) : ∀ (n : Nat) (st0 st : RunState),
    run_iter input n st0 = some st →
      ∃ l, st.trace = st0.trace ++ l ∧
        st.pda.Stack.length + pops l = st0.pda.Stack.length + pushed l := by
  intro n
  induction n with
  | zero =>
    intro st0 st h
    simp only [run_iter, Option.some.injEq] at h
    subst h
    exact ⟨[], by simp, by simp [pops, pushed]⟩
  | succ n ih =>
    intro st0 st h
    unfold run_iter at h
    cases hb : loop_body input st0 with
    | none => rw [hb] at h; simp at h
    | some bs =>
      obtain ⟨b, s1⟩ := bs
      rw [hb] at h
      cases b with
      | false => simp at h
      | true =>
        simp only [] at h
        obtain ⟨t, _, happ, hp, htr, _⟩ := loop_body_continue _ _ _ hb
        obtain ⟨l, hl, hinv⟩ := ih _ _ h
        refine ⟨t :: l, by rw [hl, htr]; simp, ?_⟩
        have h1 := stack_after_length _ _ _ happ
        rw [hp] at hinv
        simp only [] at hinv
        have e1 : pops (t :: l) = pops [t] + pops l := pops_append [t] l
        have e2 : pushed (t :: l) = pushed [t] + pushed l := pushed_append [t] l
        omega

theorem dropWhile_lead (p : Char → Bool) : ∀ lead l : List Char, (∀ c ∈ lead, p c = true) →
    (∀ c, l.head? = some c → p c = false) → (lead ++ l).dropWhile p = l := by
  intro lead
  induction lead with
  | nil =>
    intro l _ hl
    cases l with
    | nil => rfl
    | cons c cs => simp [List.dropWhile, hl c rfl]
  | cons a lead ih =>
    intro l h hl
    have ha : p a = true := h a (by simp)
    simp only [List.cons_append, List.dropWhile, ha]
    exact ih l (fun c hc => h c (by simp [hc])) hl

theorem trim_spec (lead core trail : List Char) (hne : core ≠ [])
    (hlead : ∀ c ∈ lead, isSpace c = true) (htrail : ∀ c ∈ trail, isSpace c = true)
    (hhead : ∀ c, core.head? = some c → isSpace c = false)
    (hlast : ∀ c, core.getLast? = some c → isSpace c = false) :
    ((lead ++ core ++ trail).dropWhile isSpace).rdropWhile isSpace = core := by
  have h1 : (lead ++ core ++ trail).dropWhile isSpace = core ++ trail := by
    rw [List.append_assoc]
    apply dropWhile_lead _ _ _ hlead
    intro c hc
    apply hhead
    obtain ⟨d, ds, hd⟩ := List.exists_cons_of_ne_nil hne
    rw [hd] at hc ⊢
    simpa using hc
  rw [h1, List.rdropWhile, List.reverse_append,
    dropWhile_lead isSpace trail.reverse core.reverse (fun c hc => htrail c (by simpa using hc))
      (fun c hc => hlast c (by simpa [List.head?_reverse] using hc)),
    List.reverse_reverse]

theorem replace_comma_space_separated : ∀ rest : List (List Char × List Char),
    (∀ p ∈ rest, (p.1 = [' '] ∨ p.1 = [',', ' '] ∨ p.1 = [',']) ∧
      p.2 ≠ [] ∧ ' ' ∉ p.2 ∧ ',' ∉ p.2) →
    replaceScan [',', ' '] [' '] 0 (rest.flatMap (fun p => p.1 ++ p.2)) =
      rest.flatMap (fun p => (if p.1 = [','] then [','] else [' ']) ++ p.2) := by
  intro rest
  induction rest with
  | nil => intro _; rfl
  | cons p rest ih =>
    intro h
    obtain ⟨hsep, hne, hsp, hco⟩ := h p (by simp)
    have ih2 := ih (fun q hq => h q (by simp [hq]))
    have htail : replaceScan [',', ' '] [' '] 0
        (p.2 ++ rest.flatMap (fun p => p.1 ++ p.2)) =
        p.2 ++ rest.flatMap (fun p => (if p.1 = [','] then [','] else [' ']) ++ p.2) := by
      rw [replaceScan_skip ',' [' '] [' '] p.2 _ hco, ih2]
    simp only [List.flatMap_cons, List.append_assoc]
    rcases hsep with h1 | h1 | h1
    · rw [h1]
      have hpre : List.isPrefixOf [',', ' '] (' ' :: (p.2 ++
          rest.flatMap (fun p => p.1 ++ p.2))) = false := by
        simp [List.isPrefixOf]
      rw [List.singleton_append, replaceScan, hpre, htail]
      simp
    · rw [h1]
      have hpre : List.isPrefixOf [',', ' '] (',' :: ' ' :: (p.2 ++
          rest.flatMap (fun p => p.1 ++ p.2))) = true := by
        simp [List.isPrefixOf]
      simp only [List.cons_append, List.nil_append]
      rw [replaceScan, hpre]
      simp only [List.length_cons, List.length_nil, Nat.reduceAdd, Nat.add_one_sub_one]
      rw [replaceScan, htail]
      simp
    · rw [h1]
      obtain ⟨c, cs, hc⟩ := List.exists_cons_of_ne_nil hne
      have hcne : ¬ ' ' = c := fun e => hsp (by rw [hc, ← e]; simp)
      have hpre : List.isPrefixOf [',', ' '] (',' :: (p.2 ++
          rest.flatMap (fun p => p.1 ++ p.2))) = false := by
        rw [hc]
        simp [List.isPrefixOf, hcne]
      rw [List.singleton_append, replaceScan, hpre, htail]
      simp

theorem flatMap_comma_tok : ∀ tok : List Char, ',' ∉ tok →
    tok.flatMap (fun c => if c = ',' then [' '] else [c]) = tok := by
  intro tok
  induction tok with
  | nil => intro _; rfl
  | cons c cs ih =>
    intro h
    have hc : ¬ c = ',' := fun e => h (by simp [e])
    have hcs : ',' ∉ cs := fun e => h (by simp [e])
    simp [List.flatMap_cons, hc, ih hcs]

theorem replace_comma_separated : ∀ rest : List (List Char × List Char),
    (∀ p ∈ rest, ',' ∉ p.2) →
    replaceScan [','] [' '] 0
        (rest.flatMap (fun p => (if p.1 = [','] then [','] else [' ']) ++ p.2)) =
      rest.flatMap (fun p => ' ' :: p.2) := by
  intro rest
  rw [replaceScan_single]
  induction rest with
  | nil => intro _; rfl
  | cons p rest ih =>
    intro h
    have ih2 := ih (fun q hq => h q (by simp [hq]))
    simp only [List.flatMap_cons, List.flatMap_append, ih2, flatMap_comma_tok _ (h p (by simp))]
    by_cases h1 : p.1 = [','] <;> simp [h1]

theorem separated_joinWith : ∀ (rest : List (List Char × List Char)) (first : List Char),
    first ++ rest.flatMap (fun p => ' ' :: p.2) =
      joinWith [' '] (first :: rest.map Prod.snd) := by
  intro rest
  induction rest with
  | nil => intro first; simp [joinWith]
  | cons p rest ih =>
    intro first
    simp only [List.flatMap_cons, List.map_cons, joinWith, List.append_assoc]
    rw [← ih p.2]
    simp

theorem separated_getLast (first : List Char) (rest : List (List Char × List Char))
    (hne : ∀ p ∈ rest, p.2 ≠ []) :
    (first ++ rest.flatMap (fun p => p.1 ++ p.2)).getLast? =
      ((first :: rest.map Prod.snd).getLast?).bind List.getLast? := by
  rcases List.eq_nil_or_concat rest with h | ⟨r, p, h⟩
  · subst h
    simp
  · rw [List.concat_eq_append] at h
    subst h
    have hp : p.2 ≠ [] := hne p (by simp)
    have e1 : first ++ (r ++ [p]).flatMap (fun p => p.1 ++ p.2) =
        (first ++ r.flatMap (fun p => p.1 ++ p.2) ++ p.1) ++ p.2 := by
      simp [List.flatMap_append]
    have e2 : first :: (r ++ [p]).map Prod.snd = (first :: r.map Prod.snd) ++ [p.2] := by
      simp
    rw [e1, e2, List.getLast?_append_of_ne_nil _ hp, List.getLast?_append_of_ne_nil _ (by simp)]
    simp

/-! ## The claims -/

/-- C1: when the loop of `run_pda` halts, with any fuel that suffices, `run_pda` returns
true exactly when the state at halt belongs to `Settings.F` of the machine and the input
cursor equals the length of the input; replacing the stack at halt by any other stack does
not change the verdict. -/
theorem run_pda_accepts_iff (pda : PDA) (input : List UInt8) (stdin : List Int) (fuel : Nat)
    (st : RunState) (hhalt : run_loop input fuel (run_init pda stdin) = Outcome.ok st) :
    (∀ k, run_pda pda input stdin (fuel + k) =
        Outcome.ok (decide (st.pda.State ∈ pda.Settings.F ∧ st.input_index = input.length))) ∧
    (∀ stack : List String,
        run_verdict input { st with pda := { st.pda with Stack := stack } } =
          run_verdict input st) := by
  constructor
  · intro k
    have hk := run_loop_mono input fuel _ _ hhalt k
    have hF : st.pda.Settings = pda.Settings := (run_loop_frame input fuel _ _ hhalt).1
    unfold run_pda
    rw [hk]
    simp only [run_verdict, int_in_slice_iff, hF]
    by_cases hv : st.pda.State ∈ pda.Settings.F ∧ st.input_index = input.length
    · simp [hv]
    · simp only [hv, if_false]; simp [hv]
  · intro stack
    rfl

/-- The run of the balanced-parentheses machine on "()" halts within 3 iterations, in state
0 with the cursor at 2, and is accepted. -/
theorem run_pda_accepts_iff_witness :
    ∃ st, run_loop (bytesOf "()") 3 (run_init (create_pda parens_settings) []) = Outcome.ok st ∧
      run_pda (create_pda parens_settings) (bytesOf "()") [] 3 = Outcome.ok true := by
  have h : run_loop (bytesOf "()") 3 (run_init (create_pda parens_settings) []) =
      Outcome.ok { pda := create_pda parens_settings, input_index := 2, stdin := [],
                   trace := [⟨0, "(", "λ", "(", 0⟩, ⟨0, ")", "(", "λ", 0⟩] } := by
    decide
  refine ⟨_, h, ?_⟩
  have h2 := (run_pda_accepts_iff _ _ _ _ _ h).1 0
  rw [h2]
  decide

/-- C2: on a configuration with a non-empty stack the matcher returns a candidate list
`ts`.  If `ts` is empty `step_pda` returns (false, false) and leaves the machine as it
was.  Otherwise let `t` be the only candidate, or, when there are several, the candidate
at the index read from the input stream (an index inside the list): `step_pda` returns
(true, `t.Character != "λ"`), the new state is `t.FinalState`, and the new stack is the old
one without its top cell when `t.Pop` is not "λ" (the cell removed equals `t.Pop`),
followed by the characters of `t.Push` from left to right when `t.Push` is not "λ", so
that the last character of a non-empty `t.Push` is the new top. -/
theorem step_pda_refines (pda : PDA) (character : String) (stdin : List Int)
    (h : pda.Stack ≠ []) :
    ∃ ts, find_transitions_pda pda character = some (pda, ts) ∧
      (ts = [] →
        step_pda pda character stdin =
          some { pda := pda, do_continue := false, consume_input := false,
                 applied := none, stdin := stdin }) ∧
      (∀ (t : PDA_transition) (rest : List Int),
        ((ts = [t] ∧ rest = stdin) ∨
          (1 < ts.length ∧ 0 ≤ (Scanf stdin 0).1 ∧
            ts.get? (Scanf stdin 0).1.toNat = some t ∧ rest = (Scanf stdin 0).2)) →
        step_pda pda character stdin =
            some { pda := { pda with
                     Stack := stack_after pda.Stack t, State := t.FinalState },
                   do_continue := true,
                   consume_input := decide (t.Character ≠ "λ"),
                   applied := some t,
                   stdin := rest } ∧
          (t.Pop ≠ "λ" → pda.Stack.getLast? = some t.Pop) ∧
          (t.Push ≠ "λ" → ∀ ch, t.Push.data.getLast? = some ch →
            (stack_after pda.Stack t).getLast? = some (String.singleton ch))) := by
  refine ⟨_, find_transitions_pda_eq pda character h, ?_, ?_⟩
  · intro hts
    rw [step_pda_eq pda character stdin h]
    simp [hts]
  · intro t rest hsel
    have hmem : t ∈ pda.Transitions.filter (applies pda character) := by
      rcases hsel with ⟨h1, _⟩ | ⟨_, _, h1, _⟩
      · rw [h1]; simp
      · exact List.get?_mem h1
    have hap := (List.mem_filter.mp hmem).2
    simp only [applies, decide_eq_true_eq] at hap
    refine ⟨?_, ?_, ?_⟩
    · rw [step_pda_eq pda character stdin h]
      rcases hsel with ⟨h1, h2⟩ | ⟨h1, h2, h3, h4⟩
      · simp [h1, h2, stack_after]
      · have hne : (pda.Transitions.filter (applies pda character)).length ≠ 0 := by omega
        have hlt : (Scanf stdin 0).1.toNat <
            (pda.Transitions.filter (applies pda character)).length := by
          have := List.get?_eq_some.mp h3
          exact this.1
        have hidx : ¬ ((Scanf stdin 0).1 < 0 ∨
            ((pda.Transitions.filter (applies pda character)).length : Int) ≤ (Scanf stdin 0).1) := by
          omega
        simp only [hne, if_false, h1, gt_iff_lt, if_true, hidx, h3, h4, stack_after]
    · intro hpop
      rcases hap.2.2 with h1 | h1
      · exact absurd h1 hpop
      · exact h1
    · intro hpush ch hch
      simp only [stack_after, hpush, if_false]
      have hne : t.Push.data ≠ [] := by
        intro h0; rw [h0] at hch; simp at hch
      rw [List.getLast?_append_of_ne_nil _ (by simpa using hne)]
      rw [List.getLast?_map, hch]
      rfl

/-- On the machine with two applicable transitions and the stream [1, 0], the step applies
the candidate of index 1 and leaves [0] unread. -/
theorem step_pda_refines_witness :
    (create_pda fork_settings).Stack ≠ [] ∧
      step_pda (create_pda fork_settings) "a" [1, 0] =
        some { pda := { create_pda fork_settings with State := 2 },
               do_continue := true, consume_input := true,
               applied := some ⟨0, "a", "λ", "λ", 2⟩, stdin := [0] } := by
  refine ⟨by decide, ?_⟩
  obtain ⟨ts, h1, _, h3⟩ := step_pda_refines (create_pda fork_settings) "a" [1, 0] (by decide)
  have hts : ts = [⟨0, "a", "λ", "λ", 1⟩, ⟨0, "a", "λ", "λ", 2⟩] := by
    have h0 : find_transitions_pda (create_pda fork_settings) "a" =
        some (create_pda fork_settings, [⟨0, "a", "λ", "λ", 1⟩, ⟨0, "a", "λ", "λ", 2⟩]) := by
      decide
    rw [h0] at h1
    simp only [Option.some.injEq, Prod.mk.injEq] at h1
    exact h1.2.symm
  subst hts
  rw [(h3 ⟨0, "a", "λ", "λ", 2⟩ [0] (Or.inr ⟨by decide, by decide, by decide, by decide⟩)).1]
  decide

/-- C3: on a configuration with a non-empty stack `find_transitions_pda` returns, and
returns exactly the transitions of the table whose start state is the current state, whose
input symbol is the next symbol or "λ", and whose pop symbol is "λ" or the top of the
stack, in table order (the order-preserving filter of the table); the machine is left as
it was. -/
theorem find_transitions_pda_filter (pda : PDA) (character : String) (h : pda.Stack ≠ []) :
    ∃ ts, find_transitions_pda pda character = some (pda, ts) ∧
      ts = pda.Transitions.filter (fun t => decide (t.StartState = pda.State ∧
          (t.Character = character ∨ t.Character = "λ") ∧
          (t.Pop = "λ" ∨ t.Pop = pda.Stack.getLast h))) ∧
      ts.Sublist pda.Transitions ∧
      ∀ t, t ∈ ts ↔ (t ∈ pda.Transitions ∧ t.StartState = pda.State ∧
          (t.Character = character ∨ t.Character = "λ") ∧
          (t.Pop = "λ" ∨ t.Pop = pda.Stack.getLast h)) := by
  have hlast : pda.Stack.getLast? = some (pda.Stack.getLast h) := List.getLast?_eq_getLast _ h
  have hfun : applies pda character = (fun t => decide (t.StartState = pda.State ∧
          (t.Character = character ∨ t.Character = "λ") ∧
          (t.Pop = "λ" ∨ t.Pop = pda.Stack.getLast h))) := by
    funext t
    simp only [applies, hlast, Option.some.injEq]
    congr 1
    apply propext
    constructor
    · rintro ⟨a, b, c⟩
      exact ⟨a, b, c.imp id Eq.symm⟩
    · rintro ⟨a, b, c⟩
      exact ⟨a, b, c.imp id Eq.symm⟩
  refine ⟨_, find_transitions_pda_eq pda character h, ?_, List.filter_sublist _, ?_⟩
  · rw [hfun]
  · intro t
    rw [hfun, List.mem_filter]
    simp

/-- On the machine with two applicable transitions and the symbol "a" the matcher returns
both, in table order. -/
theorem find_transitions_pda_filter_witness :
    (create_pda fork_settings).Stack ≠ [] ∧
      find_transitions_pda (create_pda fork_settings) "a" =
        some (create_pda fork_settings, [⟨0, "a", "λ", "λ", 1⟩, ⟨0, "a", "λ", "λ", 2⟩]) := by
  refine ⟨by decide, ?_⟩
  obtain ⟨ts, h1, h2, _, _⟩ :=
    find_transitions_pda_filter (create_pda fork_settings) "a" (by decide)
  rw [h1, h2]
  decide

/-- C4 (the code at a failing input): the machine loaded from `swap_settings` shows the
start stack ["Z"]; after one `run a` the same, unassigned, session state shows the stack
["A"], because the push of the run wrote into the backing array it shares.  This holds
whatever capacities the runtime chooses for the arrays it grows (`grow`). -/
theorem run_pda_overwrites_caller_stack (grow : Nat → Nat) :
    (Mem.loaded_state grow [] swap_settings).1 = [["Z"]] ∧
    (Mem.view (Mem.loaded_state grow [] swap_settings).1
        (Mem.loaded_state grow [] swap_settings).2.PushDownAutomata).Stack = ["Z"] ∧
    Mem.base_run_command grow (Mem.loaded_state grow [] swap_settings).1 (bytesOf "a")
        (Mem.loaded_state grow [] swap_settings).2 [] 5 =
      Outcome.ok (some { heap := [["A"]], accepted := true,
                         trace := [⟨0, "a", "Z", "A", 1⟩], stdin := [] }) ∧
    (Mem.view [["A"]] (Mem.loaded_state grow [] swap_settings).2.PushDownAutomata).Stack = ["A"] := by
  exact ⟨rfl, rfl, rfl, rfl⟩

/-- C5 (the code at a failing input): two successive `run a` commands on the machine loaded
from `swap_settings`, with the same (empty) choices: the first accepts after applying one
transition, the second, started on the heap the first one left, rejects without applying
any.  This holds whatever capacities the runtime chooses for the arrays it grows (`grow`). -/
theorem second_run_differs (grow : Nat → Nat) :
    Mem.base_run_command grow (Mem.loaded_state grow [] swap_settings).1 (bytesOf "a")
        (Mem.loaded_state grow [] swap_settings).2 [] 5 =
      Outcome.ok (some { heap := [["A"]], accepted := true,
                         trace := [⟨0, "a", "Z", "A", 1⟩], stdin := [] }) ∧
    Mem.base_run_command grow [["A"]] (bytesOf "a")
        (Mem.loaded_state grow [] swap_settings).2 [] 5 =
      Outcome.ok (some { heap := [["A"]], accepted := false, trace := [], stdin := [] }) := by
  exact ⟨rfl, rfl⟩

/-- C6 (the code at a failing input): on the machine built from "0 a Z λ 0" and the input
"aa" the first step pops the only cell; on the configuration reached, whose stack is
empty, `find_transitions_pda` and `step_pda` panic for the symbol "a", and so does the
whole run. -/
theorem empty_stack_read_panics :
    run_iter (bytesOf "aa") 1 (run_init (create_pda drain_settings) []) =
      some { pda := { create_pda drain_settings with Stack := [] }, input_index := 1,
             stdin := [], trace := [⟨0, "a", "Z", "λ", 0⟩] } ∧
    find_transitions_pda { create_pda drain_settings with Stack := [] } "a" = none ∧
    step_pda { create_pda drain_settings with Stack := [] } "a" [] = none ∧
    run_pda (create_pda drain_settings) (bytesOf "aa") [] 5 = Outcome.panic := by
  decide

/-- C7 (counterexample): the machine built by `create_pda` from "0 a Z λ 0" reaches, after
one successful step on the input "a", a configuration whose stack has length 0; the run
then halts normally. -/
theorem stack_emptied_by_pop :
    run_iter (bytesOf "a") 1 (run_init (create_pda drain_settings) []) =
      some { pda := { create_pda drain_settings with Stack := [] }, input_index := 1,
             stdin := [], trace := [⟨0, "a", "Z", "λ", 0⟩] } ∧
    ({ create_pda drain_settings with Stack := [] } : PDA).Stack.length = 0 ∧
    run_pda (create_pda drain_settings) (bytesOf "a") [] 5 = Outcome.ok true := by
  decide

/-- C7 (amended): for every machine built by `create_pda`, every input and every choice
sequence, the run starts with the stack `[Settings.Z]`, and every configuration reached by
the loop of `run_pda` (the initial one, after 0 steps, or the one after `n` successful
steps) has a stack whose length, added to the number of pops made so far, is 1 plus the
number of cells pushed so far; so its stack has length at least 1 exactly when the pops made
so far are at most as many as the cells pushed, that is, unless every cell including the
initial symbol has been popped. -/
theorem stack_length_accounting (settings : PDA_settings) (input : List UInt8)
    (stdin : List Int) (n : Nat) (st : RunState)
    (hreach : run_iter input n (run_init (create_pda settings) stdin) = some st) :
    (run_init (create_pda settings) stdin).pda.Stack = [settings.Z] ∧
      st.pda.Stack.length + pops st.trace = 1 + pushed st.trace ∧
      (1 ≤ st.pda.Stack.length ↔ pops st.trace ≤ pushed st.trace) := by
  obtain ⟨l, hl, hinv⟩ := run_iter_stack_length input n _ _ hreach
  have h0 : (run_init (create_pda settings) stdin).pda.Stack.length = 1 := by
    simp [run_init, create_pda]
  have htr : st.trace = l := by
    rw [hl]
    simp [run_init]
  rw [htr]
  refine ⟨rfl, by omega, by omega⟩

/-- On the input "()" the balanced-parentheses machine pushes one cell and pops one: after
two steps its stack is the initial one, of length 1 = 1 + 1 - 1. -/
theorem stack_length_accounting_witness :
    run_iter (bytesOf "()") 2 (run_init (create_pda parens_settings) []) =
      some { pda := { create_pda parens_settings with Stack := ["Z"] },
             input_index := 2, stdin := [],
             trace := [⟨0, "(", "λ", "(", 0⟩, ⟨0, ")", "(", "λ", 0⟩] } ∧
    (["Z"] : List String).length +
        pops [⟨0, "(", "λ", "(", 0⟩, ⟨0, ")", "(", "λ", 0⟩] =
      1 + pushed [⟨0, "(", "λ", "(", 0⟩, ⟨0, ")", "(", "λ", 0⟩] := by
  have h : run_iter (bytesOf "()") 2 (run_init (create_pda parens_settings) []) =
      some { pda := { create_pda parens_settings with Stack := ["Z"] },
             input_index := 2, stdin := [],
             trace := [⟨0, "(", "λ", "(", 0⟩, ⟨0, ")", "(", "λ", 0⟩] } := by decide
  exact ⟨h, (stack_length_accounting parens_settings (bytesOf "()") [] 2 _ h).2.1⟩

/-- C8: `create_pda` always returns; if `v` is the token list of `Delta`, of length `n`,
the table has exactly `n / 5` transitions, and for every `k < n / 5` the tokens at indices
`5k .. 5k+4` exist and the `k`-th transition has start state `Atoi v[5k]`, input symbol
`v[5k+1]`, pop `v[5k+2]`, push `v[5k+3]` and end state `Atoi v[5k+4]`; the `n mod 5`
tokens after the last full group produce nothing. -/
theorem create_pda_groups_of_five (settings : PDA_settings) :
    (create_pda settings).Transitions.length = (delta_tokens settings.Delta).length / 5 ∧
    ∀ k, k < (delta_tokens settings.Delta).length / 5 →
      ∃ a b c d e,
        (delta_tokens settings.Delta).get? (5 * k) = some a ∧
        (delta_tokens settings.Delta).get? (5 * k + 1) = some b ∧
        (delta_tokens settings.Delta).get? (5 * k + 2) = some c ∧
        (delta_tokens settings.Delta).get? (5 * k + 3) = some d ∧
        (delta_tokens settings.Delta).get? (5 * k + 4) = some e ∧
        (create_pda settings).Transitions.get? k =
          some { StartState := Atoi a, Character := b, Pop := c, Push := d,
                 FinalState := Atoi e } := by
  rw [create_pda_transitions]
  refine ⟨by simp, ?_⟩
  intro k hk
  have hget : ∀ j, j < 5 → ∃ x, (delta_tokens settings.Delta).get? (5 * k + j) = some x := by
    intro j hj
    have hlt : 5 * k + j < (delta_tokens settings.Delta).length := by omega
    refine ⟨(delta_tokens settings.Delta).get ⟨5 * k + j, hlt⟩, ?_⟩
    simp [List.getElem?_eq_getElem hlt]
  obtain ⟨a, ha⟩ := hget 0 (by omega)
  obtain ⟨b, hb⟩ := hget 1 (by omega)
  obtain ⟨c, hc⟩ := hget 2 (by omega)
  obtain ⟨d, hd⟩ := hget 3 (by omega)
  obtain ⟨e, he⟩ := hget 4 (by omega)
  refine ⟨a, b, c, d, e, ha, hb, hc, hd, he, ?_⟩
  have ha3 : (delta_tokens settings.Delta)[5 * k]? = some a := by simpa using ha
  have hb3 : (delta_tokens settings.Delta)[5 * k + 1]? = some b := by simpa using hb
  have hc3 : (delta_tokens settings.Delta)[5 * k + 2]? = some c := by simpa using hc
  have hd3 : (delta_tokens settings.Delta)[5 * k + 3]? = some d := by simpa using hd
  have he3 : (delta_tokens settings.Delta)[5 * k + 4]? = some e := by simpa using he
  simp [List.getElem?_range hk, hk, quintuple, ha3, hb3, hc3, hd3, he3]

/-- C9 (counterexample): a tab inside `Delta` does not separate tokens: the tokens of
"0\ta Z A 1" are "0\ta", "Z", "A" and "1", four where the maximal runs of characters that
are neither white space nor commas are five, and the table built from it is empty. -/
theorem delta_tokens_tab_not_separator :
    delta_tokens "0\ta Z A 1" = ["0\ta", "Z", "A", "1"] ∧
    (create_pda { Delta := "0\ta Z A 1", Q0 := 0, Z := "Z", F := [1] }).Transitions = [] := by
  decide

/-- C9 (amended): let `Delta` be written as leading white space, then one or more tokens,
then trailing white space, where every token is non-empty and has no space and no comma,
the first token does not begin and the last token does not end with a white-space
character, and every token after the first is preceded by exactly one separator, which is
" ", ", " or "," (not necessarily the same one throughout).  Then the tokens that
`create_pda` groups into quintuples are exactly these tokens, in order.  Only the space
character and the comma separate: a tab or a newline inside a token stays in it. -/
theorem delta_tokens_separated (lead trail first : String) (rest : List (String × String))
    (hlead : ∀ c ∈ lead.data, isSpace c = true)
    (htrail : ∀ c ∈ trail.data, isSpace c = true)
    (hsep : ∀ p ∈ rest, p.1 = " " ∨ p.1 = ", " ∨ p.1 = ",")
    (htok : ∀ tok ∈ first :: rest.map Prod.snd, clean tok)
    (hbegin : ∀ c, first.data.head? = some c → isSpace c = false)
    (hend : ∀ tok c, (first :: rest.map Prod.snd).getLast? = some tok →
      tok.data.getLast? = some c → isSpace c = false) :
    delta_tokens (lead ++ separated first rest ++ trail) = first :: rest.map Prod.snd := by
  have hfirst : clean first := htok first (by simp)
  have hrest : ∀ p ∈ rest, clean p.2 := fun p hp =>
    htok p.2 (by simp only [List.mem_cons, List.mem_map]; exact Or.inr ⟨p, hp, rfl⟩)
  let rest1 : List (List Char × List Char) := rest.map (fun p => (p.1.data, p.2.data))
  have hcore : (separated first rest).data =
      first.data ++ rest1.flatMap (fun p => p.1 ++ p.2) := by
    simp [separated, rest1, List.flatMap_map]
  have hrest1 : ∀ p ∈ rest1, (p.1 = [' '] ∨ p.1 = [',', ' '] ∨ p.1 = [',']) ∧
      p.2 ≠ [] ∧ ' ' ∉ p.2 ∧ ',' ∉ p.2 := by
    intro p hp
    simp only [rest1, List.mem_map] at hp
    obtain ⟨q, hq, hqp⟩ := hp
    subst hqp
    refine ⟨?_, hrest q hq⟩
    rcases hsep q hq with h | h | h <;> rw [h] <;> simp
  have hsnd : rest1.map Prod.snd = (rest.map Prod.snd).map String.data := by
    simp [rest1, List.map_map, Function.comp_def]
  have hne : (separated first rest).data ≠ [] := by
    rw [hcore]
    simp [hfirst.1]
  have hhead : ∀ c, (separated first rest).data.head? = some c → isSpace c = false := by
    intro c hc
    apply hbegin
    obtain ⟨d, ds, hd⟩ := List.exists_cons_of_ne_nil hfirst.1
    rw [hcore, hd] at hc
    rw [hd]
    simpa using hc
  have hlast : ∀ c, (separated first rest).data.getLast? = some c → isSpace c = false := by
    intro c hc
    rw [hcore, separated_getLast _ _ (fun p hp => (hrest1 p hp).2.1), hsnd] at hc
    have e : first.data :: (rest.map Prod.snd).map String.data =
        (first :: rest.map Prod.snd).map String.data := rfl
    rw [e, List.getLast?_map] at hc
    cases hl : (first :: rest.map Prod.snd).getLast? with
    | none => rw [hl] at hc; simp at hc
    | some tok =>
      rw [hl] at hc
      exact hend tok c hl (by simpa using hc)
  have hdata : (Replace (Replace (TrimSpace (lead ++ separated first rest ++ trail))
      ", " " ") "," " ").data = joinWith [' '] ((first :: rest.map Prod.snd).map String.data) := by
    show replaceScan [','] [' '] 0 (replaceScan [',', ' '] [' '] 0
      (((lead ++ separated first rest ++ trail).data.dropWhile isSpace).rdropWhile isSpace)) = _
    rw [String.data_append, String.data_append,
      trim_spec _ _ _ hne hlead htrail hhead hlast, hcore,
      replaceScan_skip ',' [' '] [' '] first.data _ hfirst.2.2,
      replace_comma_space_separated rest1 hrest1, replaceScan_single, List.flatMap_append,
      flatMap_comma_tok _ hfirst.2.2, ← replaceScan_single,
      replace_comma_separated rest1 (fun p hp => (hrest1 p hp).2.2.2), separated_joinWith, hsnd]
    rfl
  show Split (Replace (Replace (TrimSpace (lead ++ separated first rest ++ trail))
    ", " " ") "," " ") ' ' = _
  unfold Split
  rw [hdata, joinWith_eq_intercalate,
    List.splitOn_intercalate _ ' '
      (fun l hl => by
        rw [List.mem_map] at hl
        obtain ⟨tok, ht, htl⟩ := hl
        subst htl
        exact (htok tok ht).2.1)
      (by simp),
    List.map_map]
  have hid : (String.mk ∘ String.data) = id := by funext l; rfl
  rw [hid, List.map_id]

/-- White space around the text, a tab inside a token and the three separators mixed. -/
theorem delta_tokens_separated_witness :
    " \n" ++ separated "0" [(" ", "a\tb"), (", ", "Z"), (",", "A"), (" ", "1")] ++ "\n" =
      " \n0 a\tb, Z,A 1\n" ∧
    delta_tokens
        (" \n" ++ separated "0" [(" ", "a\tb"), (", ", "Z"), (",", "A"), (" ", "1")] ++ "\n") =
      ["0", "a\tb", "Z", "A", "1"] := by
  refine ⟨by decide, ?_⟩
  exact delta_tokens_separated " \n" "\n" "0"
    [(" ", "a\tb"), (", ", "Z"), (",", "A"), (" ", "1")]
    (by decide) (by decide) (by decide) (by decide)
    (by
      intro c h
      have hc : c = '0' := by simpa using h.symm
      rw [hc]
      decide)
    (by
      intro tok c h1 h2
      have ht : tok = "1" := by simpa using h1.symm
      rw [ht] at h2
      have hc : c = '1' := by simpa using h2.symm
      rw [hc]
      decide)

/-- C10: a list of transitions whose input, pop and push symbols are non-empty strings
without space or comma and whose states are in the range of a 64-bit `int`, written as
the fields of each transition in order (states in decimal) and joined by " ", ", " or ",",
is rebuilt by `create_pda` as the same list, in the same order. -/
theorem create_pda_round_trip (ts : List PDA_transition) (sep : String) (q0 : Int)
    (z : String) (f : List Int) (hsep : sep = " " ∨ sep = ", " ∨ sep = ",")
    (hfields : ∀ t ∈ ts, clean t.Character ∧ clean t.Pop ∧ clean t.Push ∧
      in_int_range t.StartState ∧ in_int_range t.FinalState) :
    (create_pda { Delta := encode sep ts, Q0 := q0, Z := z, F := f }).Transitions = ts := by
  rw [create_pda_transitions]
  simp only []
  by_cases hne : ts = []
  · subst hne
    have h0 : encode sep [] = "" := by
      simp [encode, List.intercalate]
    rw [h0]
    decide
  · rw [tokens_of_encode sep hsep ts hne (fun t ht => ⟨(hfields t ht).1, (hfields t ht).2.1,
      (hfields t ht).2.2.1⟩)]
    have hlen : (ts.flatMap fields).length = 5 * ts.length := by
      clear hfields hne
      induction ts with
      | nil => rfl
      | cons t ts ih =>
        rw [List.flatMap_cons, List.length_append, ih]
        simp [fields]
        omega
    rw [hlen, Nat.mul_div_cancel_left _ (by norm_num : 0 < 5)]
    exact quintuples_of_fields ts (fun t ht => ⟨(hfields t ht).2.2.2.1, (hfields t ht).2.2.2.2⟩)

/-- A list of two transitions written with ", " as separator, and the table rebuilt from
it. -/
theorem create_pda_round_trip_witness :
    encode ", " [⟨0, "(", "λ", "(", 0⟩, ⟨-1, ")", "(", "λ", 12⟩] =
      "0, (, λ, (, 0, -1, ), (, λ, 12" ∧
    (∀ t ∈ ([⟨0, "(", "λ", "(", 0⟩, ⟨-1, ")", "(", "λ", 12⟩] : List PDA_transition),
      clean t.Character ∧ clean t.Pop ∧ clean t.Push ∧
        in_int_range t.StartState ∧ in_int_range t.FinalState) ∧
    (create_pda { Delta := encode ", " [⟨0, "(", "λ", "(", 0⟩, ⟨-1, ")", "(", "λ", 12⟩],
                  Q0 := 0, Z := "Z", F := [0] }).Transitions =
      [⟨0, "(", "λ", "(", 0⟩, ⟨-1, ")", "(", "λ", 12⟩] := by
  have hf : ∀ t ∈ ([⟨0, "(", "λ", "(", 0⟩, ⟨-1, ")", "(", "λ", 12⟩] : List PDA_transition),
      clean t.Character ∧ clean t.Pop ∧ clean t.Push ∧
        in_int_range t.StartState ∧ in_int_range t.FinalState := by decide
  exact ⟨by decide, hf, create_pda_round_trip _ ", " 0 "Z" [0] (Or.inr (Or.inl rfl)) hf⟩

/-- C11 (counterexample): the token "99999999999999999999x" is not an optionally signed
decimal integer, and the transition that `create_pda` builds from
"99999999999999999999x a Z A 0" has start state 9223372036854775807, not 0. -/
theorem create_pda_state_of_overflowing_prefix :
    numeral_value "99999999999999999999x" = none ∧
    (create_pda overflow_settings).Transitions =
      [⟨9223372036854775807, "a", "Z", "A", 0⟩] := by
  decide

/-- C11 (amended): `create_pda` returns a machine for every settings value (it is a total
function: no index it uses is out of range, the table has `n / 5` entries for `n` tokens).
In the `k`-th transition the start state is fixed by token `5k` and the end state by token
`5k+4`: it is the value of the token when the token is an optionally signed decimal integer
in the range of `int`, and the bound of that range on the side of the sign when such a
numeral is out of range; for a token that is not such a numeral it is 0 when the digits that
follow the optional sign, up to the first character that is not a digit, write a number
below `2 ^ 64`, and the bound of the range of `int` on the side of the sign when they write
a number of at least `2 ^ 64`. -/
theorem create_pda_states_parsed (settings : PDA_settings) :
    (create_pda settings).Transitions.length = (delta_tokens settings.Delta).length / 5 ∧
    ∀ k, k < (delta_tokens settings.Delta).length / 5 →
      ∃ a e t,
        (delta_tokens settings.Delta).get? (5 * k) = some a ∧
        (delta_tokens settings.Delta).get? (5 * k + 4) = some e ∧
        (create_pda settings).Transitions.get? k = some t ∧
        (∀ n, numeral_value a = some n → in_int_range n → t.StartState = n) ∧
        (∀ n, numeral_value a = some n → ¬ in_int_range n → t.StartState = int_bound a) ∧
        (numeral_value a = none → leading_digits_value a < 2 ^ 64 → t.StartState = 0) ∧
        (numeral_value a = none → 2 ^ 64 ≤ leading_digits_value a →
          t.StartState = int_bound a) ∧
        (∀ n, numeral_value e = some n → in_int_range n → t.FinalState = n) ∧
        (∀ n, numeral_value e = some n → ¬ in_int_range n → t.FinalState = int_bound e) ∧
        (numeral_value e = none → leading_digits_value e < 2 ^ 64 → t.FinalState = 0) ∧
        (numeral_value e = none → 2 ^ 64 ≤ leading_digits_value e →
          t.FinalState = int_bound e) := by
  rw [create_pda_transitions]
  refine ⟨by simp, ?_⟩
  intro k hk
  have hget : ∀ j, j < 5 → ∃ x, (delta_tokens settings.Delta)[5 * k + j]? = some x := by
    intro j hj
    have hlt : 5 * k + j < (delta_tokens settings.Delta).length := by omega
    exact ⟨(delta_tokens settings.Delta).get ⟨5 * k + j, hlt⟩, by
      simp [List.getElem?_eq_getElem hlt]⟩
  obtain ⟨a, ha⟩ := hget 0 (by omega)
  obtain ⟨e, he⟩ := hget 4 (by omega)
  simp only [Nat.add_zero] at ha
  refine ⟨a, e, quintuple (delta_tokens settings.Delta) (5 * k), by simpa using ha,
    by simpa using he, by simp [List.getElem?_range hk, hk], ?_⟩
  have hs : (quintuple (delta_tokens settings.Delta) (5 * k)).StartState = Atoi a := by
    simp [quintuple, ha]
  have hf : (quintuple (delta_tokens settings.Delta) (5 * k)).FinalState = Atoi e := by
    simp [quintuple, he]
  rw [hs, hf]
  obtain ⟨a1, a2, a3, a4⟩ := Atoi_numeral a
  obtain ⟨e1, e2, e3, e4⟩ := Atoi_numeral e
  exact ⟨a1, a2, a3, a4, e1, e2, e3, e4⟩

/-- C12: a machine whose `Settings.F` is empty accepts nothing: whatever the input and the
choices, a run that returns returns false. -/
theorem run_pda_empty_final_states (pda : PDA) (input : List UInt8) (stdin : List Int)
    (fuel : Nat) (b : Bool) (hF : pda.Settings.F = [])
    (hrun : run_pda pda input stdin fuel = Outcome.ok b) : b = false := by
  unfold run_pda at hrun
  cases hl : run_loop input fuel (run_init pda stdin) with
  | panic => rw [hl] at hrun; simp at hrun
  | unfinished => rw [hl] at hrun; simp at hrun
  | ok st =>
    rw [hl] at hrun
    have hS : st.pda.Settings = pda.Settings := (run_loop_frame input fuel _ _ hl).1
    simp only [Outcome.ok.injEq] at hrun
    rw [← hrun]
    simp [run_verdict, hS, hF, int_in_slice]

/-- With no final state the run on "()" consumes the input to the end, returns, and the
value it returns is false; so does the run on the empty input. -/
theorem run_pda_empty_final_states_witness :
    (create_pda nofinal_settings).Settings.F = [] ∧
    (∃ b, run_pda (create_pda nofinal_settings) (bytesOf "()") [] 3 = Outcome.ok b ∧
      b = false) ∧
    run_pda (create_pda nofinal_settings) (bytesOf "") [] 1 = Outcome.ok false := by
  have h1 : run_pda (create_pda nofinal_settings) (bytesOf "()") [] 3 = Outcome.ok false := by
    decide
  exact ⟨rfl,
    ⟨false, h1, run_pda_empty_final_states (create_pda nofinal_settings) (bytesOf "()") [] 3
      false rfl h1⟩,
    by decide⟩

/-- C13: on the balanced-parentheses machine the run on "(())" halts after four successful
steps and one failing step, whatever the input stream holds: every configuration of the
run has at most one candidate for its next symbol, so the stream is handed back unread;
the stack is back to ["Z"], and `run_pda` returns true. -/
theorem run_pda_parens_balanced (stdin : List Int) (k : Nat) :
    run_loop (bytesOf "(())") 5 (run_init (create_pda parens_settings) stdin) =
      Outcome.ok { pda := create_pda parens_settings, input_index := 4, stdin := stdin,
                   trace := [⟨0, "(", "λ", "(", 0⟩, ⟨0, "(", "λ", "(", 0⟩,
                             ⟨0, ")", "(", "λ", 0⟩, ⟨0, ")", "(", "λ", 0⟩] } ∧
    (∀ i st, run_iter (bytesOf "(())") i (run_init (create_pda parens_settings) stdin) =
        some st →
      ∃ ts, find_transitions_pda st.pda (next_char (bytesOf "(())") st.input_index) =
          some (st.pda, ts) ∧ ts.length ≤ 1) ∧
    run_pda (create_pda parens_settings) (bytesOf "(())") stdin (5 + k) = Outcome.ok true := by
  have h : run_loop (bytesOf "(())") 5 (run_init (create_pda parens_settings) stdin) =
      Outcome.ok { pda := create_pda parens_settings, input_index := 4, stdin := stdin,
                   trace := [⟨0, "(", "λ", "(", 0⟩, ⟨0, "(", "λ", "(", 0⟩,
                             ⟨0, ")", "(", "λ", 0⟩, ⟨0, ")", "(", "λ", 0⟩] } := by
    rfl
  refine ⟨h, ?_, ?_⟩
  · intro i st hst
    have h5 : ∀ j, run_iter (bytesOf "(())") (5 + j)
        (run_init (create_pda parens_settings) stdin) = none := by
      intro j
      rw [Nat.add_comm]
      rfl
    by_cases hi : i < 5
    · interval_cases i
      all_goals
        obtain rfl := Option.some.inj hst
        exact ⟨_, rfl, by decide⟩
    · obtain ⟨j, rfl⟩ : ∃ j, i = 5 + j := ⟨i - 5, by omega⟩
      rw [h5 j] at hst
      exact absurd hst (by simp)
  · unfold run_pda
    rw [run_loop_mono _ _ _ _ h k]
    rfl

/-- C14 (counterexample): on the balanced-parentheses machine with `F = [0]` the run on the
unbalanced input "(()" returns true, not false. -/
theorem run_pda_parens_unbalanced_accepted :
    run_pda (create_pda parens_settings) (bytesOf "(()") [] 4 = Outcome.ok true ∧
    run_pda (create_pda parens_settings) (bytesOf "(()") [] 4 ≠ Outcome.ok false := by
  decide

/-- C14 (amended): on the balanced-parentheses machine with `F = [0]` the run on "(()"
consumes the three symbols, halts in state 0 with the stack ["Z", "("] and returns true,
whatever the input stream and for every fuel from 4 on. -/
theorem run_pda_parens_unbalanced (stdin : List Int) (k : Nat) :
    run_loop (bytesOf "(()") 4 (run_init (create_pda parens_settings) stdin) =
      Outcome.ok { pda := { create_pda parens_settings with Stack := ["Z", "("] },
                   input_index := 3, stdin := stdin,
                   trace := [⟨0, "(", "λ", "(", 0⟩, ⟨0, "(", "λ", "(", 0⟩,
                             ⟨0, ")", "(", "λ", 0⟩] } ∧
    run_pda (create_pda parens_settings) (bytesOf "(()") stdin (4 + k) = Outcome.ok true := by
  have h : run_loop (bytesOf "(()") 4 (run_init (create_pda parens_settings) stdin) =
      Outcome.ok { pda := { create_pda parens_settings with Stack := ["Z", "("] },
                   input_index := 3, stdin := stdin,
                   trace := [⟨0, "(", "λ", "(", 0⟩, ⟨0, "(", "λ", "(", 0⟩,
                             ⟨0, ")", "(", "λ", 0⟩] } := by
    rfl
  refine ⟨h, ?_⟩
  unfold run_pda
  rw [run_loop_mono _ _ _ _ h k]
  rfl

/-- C15 (the code at a failing input): on the machine with two candidates for "a", a
scanned index of 0 or 1 applies that candidate, while a scanned index of 2 or of -1 makes
`step_pda` panic at `transitions[transition_index]`, and the run with it. -/
theorem choice_out_of_range_panics :
    find_transitions_pda (create_pda fork_settings) "a" =
      some (create_pda fork_settings, [⟨0, "a", "λ", "λ", 1⟩, ⟨0, "a", "λ", "λ", 2⟩]) ∧
    step_pda (create_pda fork_settings) "a" [0] =
      some { pda := { create_pda fork_settings with State := 1 }, do_continue := true,
             consume_input := true, applied := some ⟨0, "a", "λ", "λ", 1⟩, stdin := [] } ∧
    step_pda (create_pda fork_settings) "a" [1] =
      some { pda := { create_pda fork_settings with State := 2 }, do_continue := true,
             consume_input := true, applied := some ⟨0, "a", "λ", "λ", 2⟩, stdin := [] } ∧
    step_pda (create_pda fork_settings) "a" [2] = none ∧
    step_pda (create_pda fork_settings) "a" [-1] = none ∧
    run_pda (create_pda fork_settings) (bytesOf "a") [2] 2 = Outcome.panic ∧
    run_pda (create_pda fork_settings) (bytesOf "a") [-1] 2 = Outcome.panic := by
  decide

/-- C16: the verdict depends on the choices.  On the machine built from
"0 a λ λ 1 0 a λ λ 2" with `q0 = 0`, `F = [2]` and the input "a", both transitions are
candidates at the first step; the run that chooses candidate 0 halts in state 1 and returns
false, the run that chooses candidate 1 halts in state 2 and returns true. -/
theorem verdict_depends_on_choice :
    (create_pda fork_settings).Transitions = [⟨0, "a", "λ", "λ", 1⟩, ⟨0, "a", "λ", "λ", 2⟩] ∧
    find_transitions_pda (create_pda fork_settings) "a" =
      some (create_pda fork_settings, [⟨0, "a", "λ", "λ", 1⟩, ⟨0, "a", "λ", "λ", 2⟩]) ∧
    run_pda (create_pda fork_settings) (bytesOf "a") [0] 2 = Outcome.ok false ∧
    run_pda (create_pda fork_settings) (bytesOf "a") [1] 2 = Outcome.ok true ∧
    ∃ (pda : PDA) (input : List UInt8) (c1 c2 : List Int) (fuel : Nat),
      run_pda pda input c1 fuel = Outcome.ok false ∧
      run_pda pda input c2 fuel = Outcome.ok true := by
  refine ⟨by decide, by decide, by decide, by decide, ?_⟩
  exact ⟨create_pda fork_settings, bytesOf "a", [0], [1], 2, by decide, by decide⟩

/-- C17 (the code at a failing input): a document that gives `q0: -1234` is loaded with
start state 0, and a document that gives `Z: ""` is loaded with the start stack ["Z"]; a
document without `q0`, `Z` and `F` loads with state 0, stack ["Z"] and no final state
(`grow`, the runtime's choice of capacities for the arrays it grows, plays no part). -/
theorem load_command_sentinel_collision (grow : Nat → Nat) :
    (Mem.load_command grow [] (some (some doc_q0_sentinel)) Mem.init_state) =
      ([["Z"]],
        { PushDownAutomata :=
            { Stack := { ptr := 0, len := 1, cap := 1 },
              State := 0,
              Settings := { Delta := "0 a Z A 1", Q0 := 0, Z := "Z", F := [1] },
              Transitions := [⟨0, "a", "Z", "A", 1⟩] },
          Loaded := true }) ∧
    (Mem.load_command grow [] (some (some doc_Z_empty)) Mem.init_state) =
      ([["Z"]],
        { PushDownAutomata :=
            { Stack := { ptr := 0, len := 1, cap := 1 },
              State := 5,
              Settings := { Delta := "0 a Z A 1", Q0 := 5, Z := "Z", F := [1] },
              Transitions := [⟨0, "a", "Z", "A", 1⟩] },
          Loaded := true }) ∧
    (Mem.load_command grow [] (some (some doc_bare)) Mem.init_state) =
      ([["Z"]],
        { PushDownAutomata :=
            { Stack := { ptr := 0, len := 1, cap := 1 },
              State := 0,
              Settings := { Delta := "0 a Z A 1", Q0 := 0, Z := "Z", F := [] },
              Transitions := [⟨0, "a", "Z", "A", 1⟩] },
          Loaded := true }) := by
  exact ⟨rfl, rfl, rfl⟩

/-- C18: on a machine none of whose transitions has "λ" or the empty string as input
symbol, whatever the input and the choices, the loop of `run_pda` has consumed exactly `n`
input positions after `n` successful steps, it performs at most `len(input)` successful
steps, a run that exits the loop does so by one failing step after them, and
`len(input) + 1` calls of `step_pda` are enough for the run to end: with that fuel it is
never unfinished. -/
theorem run_terminates_without_epsilon (pda : PDA) (input : List UInt8) (stdin : List Int)
    (hno : ∀ t ∈ pda.Transitions, t.Character ≠ "λ" ∧ t.Character ≠ "") :
    (∀ n st, run_iter input n (run_init pda stdin) = some st →
      st.input_index = n ∧ n ≤ input.length) ∧
    (∀ fuel st, run_loop input fuel (run_init pda stdin) = Outcome.ok st →
      ∃ n, n ≤ input.length ∧ run_iter input n (run_init pda stdin) = some st ∧
        loop_body input st = some (false, st)) ∧
    run_loop input (input.length + 1) (run_init pda stdin) ≠ Outcome.unfinished ∧
    run_pda pda input stdin (input.length + 1) ≠ Outcome.unfinished := by
  have hsteps : ∀ n st, run_iter input n (run_init pda stdin) = some st →
      st.input_index = n ∧ n ≤ input.length := by
    intro n st h
    obtain ⟨_, _, _, i4, i5⟩ := run_iter_invariants input n _ _ h
    have e := i5 (fun t ht => (hno t ht).1)
    have b := i4 (fun t ht => (hno t ht).2) (Nat.zero_le _)
    simp only [run_init, Nat.zero_add] at e
    exact ⟨e, by omega⟩
  have hfin : run_loop input (input.length + 1) (run_init pda stdin) ≠ Outcome.unfinished := by
    intro hu
    obtain ⟨st1, h1⟩ := run_loop_unfinished input _ _ hu
    have := (hsteps _ _ h1).2
    omega
  refine ⟨hsteps, ?_, hfin, ?_⟩
  · intro fuel st h
    obtain ⟨n, _, hn, hb⟩ := run_loop_ok_iter input fuel _ _ h
    exact ⟨n, (hsteps n st hn).2, hn, hb⟩
  unfold run_pda
  cases hl : run_loop input (input.length + 1) (run_init pda stdin) with
  | ok st => simp
  | panic => simp
  | unfinished => exact absurd hl hfin

/-- The balanced-parentheses machine reads "(" and ")" only; on "((" its loop ends within
three calls of `step_pda`. -/
theorem run_terminates_without_epsilon_witness :
    (∀ t ∈ (create_pda parens_settings).Transitions, t.Character ≠ "λ" ∧ t.Character ≠ "") ∧
    run_pda (create_pda parens_settings) (bytesOf "((") [] 3 = Outcome.ok true ∧
    run_pda (create_pda parens_settings) (bytesOf "((") [] 3 ≠ Outcome.unfinished := by
  have hno : ∀ t ∈ (create_pda parens_settings).Transitions,
      t.Character ≠ "λ" ∧ t.Character ≠ "" := by decide
  exact ⟨hno, by decide,
    (run_terminates_without_epsilon (create_pda parens_settings) (bytesOf "((") [] hno).2.2.2⟩

/-- C20: on a machine started from the stack `[Settings.Z]`, if every transition whose pop
symbol is not "λ" pushes at least one character (push token neither "λ" nor empty), then
every configuration reached by the loop of `run_pda` has a non-empty stack: on it
`find_transitions_pda` returns for every symbol (its top-of-stack read does not panic), and
`step_pda` can only fail to return because a scanned choice is outside the candidate
list. -/
theorem no_underflow_when_pops_push (pda : PDA) (input : List UInt8) (stdin : List Int)
    (n : Nat) (st : RunState) (hstack : pda.Stack = [pda.Settings.Z])
    (hpush : ∀ t ∈ pda.Transitions, t.Pop ≠ "λ" → t.Push ≠ "λ" ∧ t.Push ≠ "")
    (hreach : run_iter input n (run_init pda stdin) = some st) :
    st.pda.Stack ≠ [] ∧
    (∀ c, ∃ ts, find_transitions_pda st.pda c = some (st.pda, ts)) ∧
    (∀ c, step_pda st.pda c st.stdin = none →
      1 < (st.pda.Transitions.filter (applies st.pda c)).length ∧
        ((Scanf st.stdin 0).1 < 0 ∨
          ((st.pda.Transitions.filter (applies st.pda c)).length : Int) ≤
            (Scanf st.stdin 0).1)) := by
  have hne : st.pda.Stack ≠ [] := by
    obtain ⟨_, _, ⟨l, hl, _, hmem⟩, _, _⟩ := run_iter_invariants input n _ _ hreach
    obtain ⟨l2, hl2, hinv⟩ := run_iter_stack_pos input n _ _ hreach
    have hll : l2 = l := List.append_cancel_left (hl2.symm.trans hl)
    subst hll
    have hpos : 1 ≤ st.pda.Stack.length := by
      apply hinv
      · simp [run_init, hstack]
      · intro t ht
        have htm : t ∈ pda.Transitions := hmem t ht
        by_cases hp : t.Pop = "λ"
        · exact Or.inl hp
        · exact Or.inr (hpush t htm hp)
    intro h0
    rw [h0] at hpos
    simp at hpos
  exact ⟨hne, fun c => ⟨_, find_transitions_pda_eq st.pda c hne⟩,
    fun c hnone => step_pda_none st.pda c st.stdin hne hnone⟩

/-- The machine that replaces the bottom marker by "A" pushes whenever it pops; after its
step on "a" the stack is ["A"]. -/
theorem no_underflow_when_pops_push_witness :
    (create_pda swap_settings).Stack = [(create_pda swap_settings).Settings.Z] ∧
    (∀ t ∈ (create_pda swap_settings).Transitions, t.Pop ≠ "λ" → t.Push ≠ "λ" ∧ t.Push ≠ "") ∧
    run_iter (bytesOf "a") 1 (run_init (create_pda swap_settings) []) =
      some { pda := { create_pda swap_settings with Stack := ["A"], State := 1 },
             input_index := 1, stdin := [], trace := [⟨0, "a", "Z", "A", 1⟩] } ∧
    (["A"] : List String) ≠ [] := by
  have hp : ∀ t ∈ (create_pda swap_settings).Transitions,
      t.Pop ≠ "λ" → t.Push ≠ "λ" ∧ t.Push ≠ "" := by decide
  have h : run_iter (bytesOf "a") 1 (run_init (create_pda swap_settings) []) =
      some { pda := { create_pda swap_settings with Stack := ["A"], State := 1 },
             input_index := 1, stdin := [], trace := [⟨0, "a", "Z", "A", 1⟩] } := by decide
  exact ⟨rfl, hp, h,
    (no_underflow_when_pops_push (create_pda swap_settings) (bytesOf "a") [] 1 _ rfl hp h).1⟩

end GoFlap
